import Mathlib

set_option maxRecDepth 16000

/-!
Verification of the sentiment-extraction script `scripts/analyze-sentiment-xai.py`.

The script builds a prompt, makes one call to a hosted chat model, and then
extracts structured fields from the returned markdown text using `re.search` /
`re.finditer` with five fixed patterns.  We embed the extraction pipeline over
`List Char`.  Each regular-expression construct is embedded as a
continuation-passing combinator whose alternative order matches the Python
backtracking engine: greedy quantifiers try the longest match first, lazy
quantifiers the shortest, and `re.search` tries start positions left to right.

Modelling notes:
* `\s` and `\d` are modelled by their ASCII meanings (the script only ever
  feeds them model-produced markdown; the claims do not depend on the extra
  Unicode members of these classes).
* Python `float(...)` applied to a token drawn from the class `[-\d.]` is
  modelled by `pyFloat?`, which succeeds on exactly the tokens `float` accepts
  (optional minus sign, at least one digit, at most one dot) and fails
  otherwise; values are represented exactly as normalized decimals (`DecNum`).
* The upstream chat-completion call is an external network effect; following
  the spec it is modelled as a parameter of type `Except` (its outcome: an
  exception or the response text).
-/

/-- ASCII whitespace, the characters matched by Python `\s` (and stripped by
`str.strip`) on ASCII text: space, tab, newline, carriage return, vertical
tab, form feed. -/
def pyIsSpace (c : Char) : Bool :=
  c == ' ' || c == '\t' || c == '\n' || c == '\r' || c == Char.ofNat 11 || c == Char.ofNat 12

/-- The character class `[-\d.]` of the score-capturing group. -/
def scoreClass (c : Char) : Bool :=
  c == '-' || c.isDigit || c == '.'

/-- The character class `[^\n]`. -/
def notNl (c : Char) : Bool := !(c == '\n')

/-- The character class `[^\s]`. -/
def notWs (c : Char) : Bool := !(pyIsSpace c)

/-- Python `str.strip()`: remove leading and trailing whitespace. -/
def pyStrip (s : List Char) : List Char :=
  ((s.dropWhile pyIsSpace).reverse.dropWhile pyIsSpace).reverse

/-- Boolean test that `lit` is a prefix of `t` (character lists). -/
def litPre : List Char → List Char → Bool
  | [], _ => true
  | _ :: _, [] => false
  | a :: as, b :: bs => a == b && litPre as bs

/-- Boolean test that `lit` occurs as a contiguous segment of `s`. -/
def isSeg (lit : List Char) : List Char → Bool
  | [] => litPre lit []
  | s@(_ :: cs) => litPre lit s || isSeg lit cs

/-- Numeric value of a digit string (most significant first). -/
def digitsVal (l : List Char) : Nat :=
  l.foldl (fun a c => a * 10 + (c.toNat - 48)) 0

/-- The exact decimal number `num / 10 ^ exp10`, the value denoted by a parsed
score literal.  Representations are kept trailing-zero normalized (`exp10 = 0`
or `10` does not divide `num`), so structural equality coincides with numeric
equality — e.g. the tokens `0.5` and `0.50` parse to the same `DecNum`, as
the corresponding Python floats are equal. -/
structure DecNum where
  num : Int
  exp10 : Nat
deriving Repr, DecidableEq

/-- The decimal zero, the default sentiment. -/
def zeroDec : DecNum := ⟨0, 0⟩

/-- Strip common factors of ten from `num / 10 ^ exp10`. -/
def stripTens : Int → Nat → Int × Nat
  | n, 0 => (n, 0)
  | n, k + 1 => if n % 10 == 0 then stripTens (n / 10) k else (n, k + 1)

/-- The normalized decimal `n / 10 ^ k`. -/
def mkDecNum (n : Int) (k : Nat) : DecNum :=
  ⟨(stripTens n k).1, (stripTens n k).2⟩

/-- Python `float(tok)` on tokens over the class `[-\d.]`: an optional leading
minus sign followed by a digit string with at most one dot and at least one
digit.  Returns `none` exactly when `float` raises `ValueError`.  The value is
the exact decimal denoted by the literal (the rounding of that decimal to a
binary double is outside the model; no claim depends on it). -/
def pyFloat? (s : List Char) : Option DecNum :=
  let core : List Char → Option DecNum := fun b =>
    let ip := b.takeWhile Char.isDigit
    match b.drop ip.length with
    | [] => if ip.isEmpty then none else some ⟨digitsVal ip, 0⟩
    | '.' :: fp =>
      if fp.all Char.isDigit && !(ip.isEmpty && fp.isEmpty) then
        some (mkDecNum (digitsVal ip * 10 ^ fp.length + digitsVal fp) fp.length)
      else none
    | _ => none
  match s with
  | '-' :: rest => (core rest).map (fun q => ⟨-q.num, q.exp10⟩)
  | _ => core s

/-! ## Regex combinators (continuation-passing, Python backtracking order) -/

/-- Literal: `lit` must match here, then the continuation runs. -/
def litK (lit : List Char) (k : List Char → Option α) (t : List Char) : Option α :=
  if litPre lit t then k (t.drop lit.length) else none

/-- Single literal character. -/
def charK (c : Char) (k : List Char → Option α) : List Char → Option α
  | [] => none
  | b :: bs => if b == c then k bs else none

/-- Greedy star over a character class (`p*`): consume as many `p`-characters
as possible, backtracking to shorter runs if the continuation fails. -/
def starK (p : Char → Bool) (k : List Char → Option α) : List Char → Option α
  | [] => k []
  | c :: cs =>
    if p c then
      match starK p k cs with
      | some a => some a
      | none => k (c :: cs)
    else k (c :: cs)

/-- Greedy plus over a character class (`p+`). -/
def plusK (p : Char → Bool) (k : List Char → Option α) : List Char → Option α
  | [] => none
  | c :: cs => if p c then starK p k cs else none

/-- Greedy capturing plus over a character class (`(p+)`), passing the captured
group to the continuation; longest group first. -/
def groupPlusAux (p : Char → Bool) (k : List Char → List Char → Option α)
    (acc : List Char) : List Char → Option α
  | [] => none
  | c :: cs =>
    if p c then
      match groupPlusAux p k (acc ++ [c]) cs with
      | some a => some a
      | none => k (acc ++ [c]) cs
    else none

/-- `(p+)` with empty accumulator. -/
def groupPlusK (p : Char → Bool) (k : List Char → List Char → Option α)
    (t : List Char) : Option α :=
  groupPlusAux p k [] t

/-- Lazy dot-all star (`.*?` under `re.DOTALL`), shortest first. -/
def lazyDotK (k : List Char → Option α) : List Char → Option α
  | [] => k []
  | c :: cs =>
    match k (c :: cs) with
    | some a => some a
    | none => lazyDotK k cs

/-- Lazy capturing dot-all star (`(.*?)`), shortest first, passing the captured
group and the rest to the continuation. -/
def lazyGroupAux (k : List Char → List Char → Option α) (acc : List Char) :
    List Char → Option α
  | [] => k acc []
  | c :: cs =>
    match k acc (c :: cs) with
    | some a => some a
    | none => lazyGroupAux k (acc ++ [c]) cs

/-- `re.search`: try the pattern at each start position, left to right
(including the position at the end of the text). -/
def reSearch (step : List Char → Option α) : List Char → Option α
  | [] => step []
  | c :: cs =>
    match step (c :: cs) with
    | some a => some a
    | none => reSearch step cs

/-- `$` in non-multiline mode: end of text, or just before a final newline. -/
def atDollar : List Char → Bool
  | [] => true
  | [c] => c == '\n'
  | _ => false

/-! ## The five patterns of the script -/

def nbHeading : List Char := ("### Non-Biased Review").toList
def hashesLit : List Char := ("###").toList
def scoreLabel : List Char := ("**Score:**").toList
def exampleTweetsLook : List Char := ("**Example Tweets").toList
def exampleTweetsMarker : List Char := ("**Example Tweets:**").toList
def accountLabel : List Char := ("**Account:**").toList
def tweetTextLabel : List Char := ("**Tweet Text:**").toList
def linkLabel : List Char := ("**Link:**").toList
def headingOf (name : List Char) : List Char := ("### ").toList ++ name
def leftName : List Char := ("Left").toList
def centerName : List Char := ("Center").toList
def rightName : List Char := ("Right").toList

/-- The lookahead `(?=###|$)` continuation of the summary and tweet-section
capture groups. -/
def hashEndLook (f : List Char → α) (g t : List Char) : Option α :=
  if litPre hashesLit t || atDollar t then some (f g) else none

/-- The lookahead `(?=\*\*Example Tweets)` continuation of the score
pattern's rationale group. -/
def tweetsLook (tok : List Char) (g t : List Char) : Option (List Char × List Char) :=
  if litPre exampleTweetsLook t then some (tok, g) else none

/-- The pattern `### Non-Biased Review[^\n]*\n(.*?)(?=###|$)` (DOTALL) at one
start position; returns capture group 1. -/
def stepSummary : List Char → Option (List Char) :=
  litK nbHeading
    (starK notNl
      (charK '\n'
        (lazyGroupAux (hashEndLook id) [])))

/-- The pattern `### NAME\s*\n\*\*Score:\*\*\s*([-\d.]+).*?\n(.*?)(?=\*\*Example Tweets)`
(DOTALL) at one start position; returns capture groups 1 and 2. -/
def stepScore (name : List Char) : List Char → Option (List Char × List Char) :=
  litK (headingOf name)
    (starK pyIsSpace
      (charK '\n'
        (litK scoreLabel
          (starK pyIsSpace
            (groupPlusK scoreClass (fun tok =>
              lazyDotK (charK '\n'
                (lazyGroupAux (tweetsLook tok) []))))))))

/-- The pattern `### NAME.*?\*\*Example Tweets:\*\*(.*?)(?=###|$)` (DOTALL) at
one start position; returns capture group 1. -/
def stepTweetSec (name : List Char) : List Char → Option (List Char) :=
  litK (headingOf name)
    (lazyDotK
      (litK exampleTweetsMarker
        (lazyGroupAux (hashEndLook id) [])))

/-- One extracted citation: `account`, `text`, `url`, as appended by
`extract_tweets`. -/
structure Citation where
  account : List Char
  text : List Char
  url : List Char
deriving Repr, DecidableEq

/-- The scheme part `https?://` of the link group.  The `s?` is greedy, so the
alternative with `s` is tried first; since `://` cannot begin with `s`, the
two backtracking alternatives of `https?://` succeed exactly on the literal
prefixes `https://` and `http://`, in this order. -/
def schemeK (k : List Char → List Char → Option α) (t : List Char) : Option α :=
  if litPre ("https://").toList t then k (("https://").toList) (t.drop 8)
  else if litPre ("http://").toList t then k (("http://").toList) (t.drop 7)
  else none

/-- The tweet-entry pattern
`\d+\.\s+\*\*Account:\*\*\s*([^\n]+)\s+\*\*Tweet Text:\*\*\s*([^\n]+)\s+\*\*Link:\*\*\s*(https?://[^\s]+)`
at one start position; returns the `Citation` built from the stripped groups
(as in the script) and the rest of the text after the match. -/
def stepTweet (s : List Char) : Option (Citation × List Char) :=
  if (s.takeWhile Char.isDigit).isEmpty then none
  else
    charK '.'
      (plusK pyIsSpace
        (litK accountLabel
          (starK pyIsSpace
            (groupPlusK notNl (fun g1 =>
              plusK pyIsSpace
                (litK tweetTextLabel
                  (starK pyIsSpace
                    (groupPlusK notNl (fun g2 =>
                      plusK pyIsSpace
                        (litK linkLabel
                          (starK pyIsSpace
                            (schemeK (fun sch =>
                              groupPlusK notWs (fun g3 rest =>
                                some (⟨pyStrip g1, pyStrip g2, pyStrip (sch ++ g3)⟩,
                                  rest)))))))))))))))
      (s.drop (s.takeWhile Char.isDigit).length)

/-- `re.finditer` over the tweet pattern: scan left to right, emitting each
non-overlapping match and resuming after its end; fuelled by the text length
(every match consumes at least one character). -/
def finditerAux : Nat → List Char → List Citation
  | 0, _ => []
  | _ + 1, [] => []
  | fuel + 1, c :: cs =>
    match stepTweet (c :: cs) with
    | some (cit, rest) => cit :: finditerAux fuel rest
    | none => finditerAux fuel cs

/-- `extract_tweets(section_name)` of the script. -/
def extract_tweets (name : List Char) (content : List Char) : List Citation :=
  match reSearch (stepTweetSec name) content with
  | some span => finditerAux span.length span
  | none => []

/-- One perspective record of the result dict. -/
structure PerspectiveView where
  sentiment : DecNum
  summary : List Char
  tweets : List Citation
deriving Repr, DecidableEq

/-- The result dict of `analyze_sentiment`. -/
structure SentimentReport where
  nonBiasedSummary : List Char
  left : PerspectiveView
  center : PerspectiveView
  right : PerspectiveView
deriving Repr, DecidableEq

/-- The all-defaults result the script starts from. -/
def defaultReport : SentimentReport :=
  ⟨[], ⟨zeroDec, [], []⟩, ⟨zeroDec, [], []⟩, ⟨zeroDec, [], []⟩⟩

/-- Apostrophe character (used in the Python `ValueError` message). -/
def sqc : Char := Char.ofNat 39

/-- The message of the `ValueError` raised by `float(tok)`. -/
def floatError (tok : List Char) : List Char :=
  ("could not convert string to float: ").toList ++ sqc :: tok ++ [sqc]

/-- The per-perspective score/rationale extraction step: on a match, convert
group 1 with `float` (which may raise, modelled as `Except.error`) and strip
group 2; on no match both fields keep their defaults. -/
def scorePart (name : List Char) (content : List Char) :
    Except (List Char) (DecNum × List Char) :=
  match reSearch (stepScore name) content with
  | none => Except.ok (zeroDec, [])
  | some (tok, g2) =>
    match pyFloat? tok with
    | some q => Except.ok (q, pyStrip g2)
    | none => Except.error (floatError tok)

/-- The non-biased summary field: the stripped capture on a match, the empty
default otherwise. -/
def summaryPart (content : List Char) : List Char :=
  match reSearch stepSummary content with
  | some g => pyStrip g
  | none => []

/-- The extraction part of `analyze_sentiment` (everything after the model
call): summary match, three score/rationale matches (in left, center, right
order, as in the script, so a `float` failure raises at the first offending
perspective and the summary computation cannot raise), and the three
tweet-list extractions. -/
def analyze_extract (content : List Char) : Except (List Char) SentimentReport :=
  match scorePart leftName content with
  | Except.error e => Except.error e
  | Except.ok (lq, ls) =>
    match scorePart centerName content with
    | Except.error e => Except.error e
    | Except.ok (cq, cs2) =>
      match scorePart rightName content with
      | Except.error e => Except.error e
      | Except.ok (rq, rs) =>
        Except.ok
          { nonBiasedSummary := summaryPart content
            left := ⟨lq, ls, extract_tweets leftName content⟩
            center := ⟨cq, cs2, extract_tweets centerName content⟩
            right := ⟨rq, rs, extract_tweets rightName content⟩ }

/-- `analyze_sentiment`, with the upstream chat-completion call (a network
effect) abstracted as its outcome: an exception, or the response text that is
then fed to the extractor. -/
def analyze_sentiment (upstream : Except (List Char) (List Char)) :
    Except (List Char) SentimentReport :=
  match upstream with
  | Except.error e => Except.error e
  | Except.ok content => analyze_extract content

/-! ## The `__main__` block: argument check, emission, exit code -/

/-- Left brace and right brace characters. -/
def lbr : Char := Char.ofNat 123

def rbr : Char := Char.ofNat 125

/-- Backslash character. -/
def bsl : Char := Char.ofNat 92

/-- Double-quote character. -/
def dqc : Char := Char.ofNat 34

/-- Lower-case hex digit. -/
def hexDigit (n : Nat) : Char :=
  if n < 10 then Char.ofNat (48 + n) else Char.ofNat (87 + n % 16)

/-- Four lower-case hex digits. -/
def hex4 (n : Nat) : List Char :=
  [hexDigit (n / 4096 % 16), hexDigit (n / 256 % 16), hexDigit (n / 16 % 16), hexDigit (n % 16)]

/-- `json.dumps` escaping of one character (`ensure_ascii=True` default):
printable ASCII except quote and backslash is literal, the common control
characters use short escapes, everything else becomes `\uXXXX` (with a
surrogate pair beyond the BMP). -/
def jsonEscapeChar (c : Char) : List Char :=
  if c == dqc then [bsl, dqc]
  else if c == bsl then [bsl, bsl]
  else if c == '\n' then [bsl, 'n']
  else if c == '\r' then [bsl, 'r']
  else if c == '\t' then [bsl, 't']
  else if c == Char.ofNat 8 then [bsl, 'b']
  else if c == Char.ofNat 12 then [bsl, 'f']
  else if 32 ≤ c.toNat && c.toNat ≤ 126 then [c]
  else if c.toNat < 65536 then bsl :: 'u' :: hex4 c.toNat
  else
    let n := c.toNat - 65536
    (bsl :: 'u' :: hex4 (55296 + n / 1024)) ++ (bsl :: 'u' :: hex4 (56320 + n % 1024))

/-- A JSON string literal for `s`. -/
def jsonStr (s : List Char) : List Char :=
  dqc :: (s.map jsonEscapeChar).flatten ++ [dqc]

/-- `json.dumps({"error": msg})`: the single-line error object. -/
def errObjLine (msg : List Char) : List Char :=
  lbr :: jsonStr (("error").toList) ++ (": ").toList ++ jsonStr msg ++ [rbr]

/-- The usage message of the script. -/
def usageMsg : List Char :=
  ("Usage: analyze-sentiment-xai.py <title> <url>").toList

/-- Rendering of a sentiment number.  Modelled from the spec: the script
serializes a Python float with `json.dumps`; the exact decimal formatting of
floats is outside the exact-decimal model, so the value is rendered as
`num` or `num e- exp10` instead (no claim inspects these bytes). -/
def numRepr (q : DecNum) : List Char :=
  (toString q.num).toList ++
    (if q.exp10 == 0 then [] else ('e' :: '-' :: (toString q.exp10).toList))

/-- `json.dumps(value, indent=2)` for one citation dict at list depth. -/
def dumpCitation (c : Citation) : List Char :=
  let i6 : List Char := List.replicate 6 ' '
  let i8 : List Char := List.replicate 8 ' '
  i6 ++ [lbr, '\n'] ++
  i8 ++ jsonStr (("account").toList) ++ (": ").toList ++ jsonStr c.account ++ [',', '\n'] ++
  i8 ++ jsonStr (("text").toList) ++ (": ").toList ++ jsonStr c.text ++ [',', '\n'] ++
  i8 ++ jsonStr (("url").toList) ++ (": ").toList ++ jsonStr c.url ++ ['\n'] ++
  i6 ++ [rbr]

/-- `json.dumps(value, indent=2)` for one perspective dict. -/
def dumpPersp (key : List Char) (p : PerspectiveView) : List Char :=
  let i2 : List Char := List.replicate 2 ' '
  let i4 : List Char := List.replicate 4 ' '
  let tweets : List Char :=
    match p.tweets with
    | [] => ('[').toString.toList ++ (']').toString.toList
    | ts =>
      ('[').toString.toList ++ ['\n'] ++
      (List.intersperse ([',', '\n'] : List Char) (ts.map dumpCitation)).flatten ++ ['\n'] ++
      i4 ++ (']').toString.toList
  i2 ++ jsonStr key ++ (": ").toList ++ [lbr, '\n'] ++
  i4 ++ jsonStr (("sentiment").toList) ++ (": ").toList ++ numRepr p.sentiment ++ [',', '\n'] ++
  i4 ++ jsonStr (("summary").toList) ++ (": ").toList ++ jsonStr p.summary ++ [',', '\n'] ++
  i4 ++ jsonStr (("tweets").toList) ++ (": ").toList ++ tweets ++ ['\n'] ++
  i2 ++ [rbr]

/-- `json.dumps(result, indent=2)`: the success record printed to stdout. -/
def reportDump (r : SentimentReport) : List Char :=
  let i2 : List Char := List.replicate 2 ' '
  [lbr, '\n'] ++
  i2 ++ jsonStr (("nonBiasedSummary").toList) ++ (": ").toList ++
    jsonStr r.nonBiasedSummary ++ [',', '\n'] ++
  dumpPersp (("left").toList) r.left ++ [',', '\n'] ++
  dumpPersp (("center").toList) r.center ++ [',', '\n'] ++
  dumpPersp (("right").toList) r.right ++ ['\n'] ++
  [rbr]

/-- Observable outcome of one run: the lines printed to each stream, the exit
status, and whether the upstream model call was made. -/
structure RunResult where
  stdoutLines : List (List Char)
  stderrLines : List (List Char)
  exitCode : Nat
  upstreamCalled : Bool
deriving Repr, DecidableEq

/-- The `__main__` block: with fewer than three entries in `sys.argv` (the
program name plus fewer than two positional arguments) it prints the usage
error object to standard output and exits 1 without calling the model;
otherwise it runs `analyze_sentiment`, printing the indented report to
standard output on success (exit 0) and the error object to standard error on
any exception (exit 1). -/
def mainRun (argv : List (List Char)) (upstream : Except (List Char) (List Char)) :
    RunResult :=
  if argv.length < 3 then
    { stdoutLines := [errObjLine usageMsg], stderrLines := [], exitCode := 1,
      upstreamCalled := false }
  else
    match analyze_sentiment upstream with
    | Except.ok r =>
      { stdoutLines := [reportDump r], stderrLines := [], exitCode := 0,
        upstreamCalled := true }
    | Except.error e =>
      { stdoutLines := [], stderrLines := [errObjLine e], exitCode := 1,
        upstreamCalled := true }

/-! ## Basic lemmas about the prefix test and list splitting -/

theorem drop_len_append (l t : List Char) : (l ++ t).drop l.length = t := by
  induction l with
  | nil => rfl
  | cons a as ih => simp [ih]

theorem litPre_iff (lit t : List Char) : litPre lit t = true ↔ ∃ t', t = lit ++ t' := by
  induction lit generalizing t with
  | nil => simp [litPre]
  | cons a as ih =>
    cases t with
    | nil => simp [litPre]
    | cons b bs =>
      simp only [litPre, Bool.and_eq_true, beq_iff_eq, ih, List.cons_append]
      constructor
      · rintro ⟨rfl, t', rfl⟩
        exact ⟨t', rfl⟩
      · rintro ⟨t', h⟩
        obtain ⟨rfl, rfl⟩ : a = b ∧ bs = as ++ t' :=
          by constructor <;> [exact (List.cons.injEq .. ▸ h).1.symm; exact (List.cons.injEq .. ▸ h).2]
        exact ⟨rfl, t', rfl⟩

theorem litPre_append (lit t : List Char) : litPre lit (lit ++ t) = true :=
  (litPre_iff lit (lit ++ t)).mpr ⟨t, rfl⟩

theorem isSeg_of_litPre {lit s : List Char} (h : litPre lit s = true) : isSeg lit s = true := by
  cases s with
  | nil => simpa [isSeg] using h
  | cons c cs => simp [isSeg, h]

theorem isSeg_of_occurs (lit u v : List Char) : isSeg lit (u ++ lit ++ v) = true := by
  induction u with
  | nil => exact isSeg_of_litPre (by simpa using litPre_append lit v)
  | cons a as ih =>
    simp only [List.cons_append, isSeg, Bool.or_eq_true]
    exact Or.inr ih

/-! ## Inversion lemmas: a successful combinator run decomposes the text -/

theorem litK_inv {lit : List Char} {k : List Char → Option α} {t : List Char} {a : α}
    (h : litK lit k t = some a) : ∃ t', t = lit ++ t' ∧ k t' = some a := by
  unfold litK at h
  split at h
  · next hp =>
    obtain ⟨t', rfl⟩ := (litPre_iff lit t).mp hp
    exact ⟨t', rfl, by simpa [drop_len_append] using h⟩
  · exact absurd h (by simp)

theorem charK_inv {c : Char} {k : List Char → Option α} {t : List Char} {a : α}
    (h : charK c k t = some a) : ∃ t', t = c :: t' ∧ k t' = some a := by
  cases t with
  | nil => exact absurd h (by simp [charK])
  | cons b bs =>
    by_cases hb : b = c
    · subst hb
      exact ⟨bs, rfl, by simpa [charK] using h⟩
    · simp [charK, hb] at h

theorem starK_inv {p : Char → Bool} {k : List Char → Option α} {t : List Char} {a : α}
    (h : starK p k t = some a) :
    ∃ w t', t = w ++ t' ∧ (∀ c ∈ w, p c = true) ∧ k t' = some a := by
  induction t with
  | nil => exact ⟨[], [], rfl, by simp, h⟩
  | cons c cs ih =>
    by_cases hp : p c
    · simp only [starK, hp, if_true] at h
      cases hs : starK p k cs with
      | some b =>
        rw [hs] at h
        obtain ⟨w, t', rfl, hw, hk⟩ := ih (hs.trans h)
        exact ⟨c :: w, t', rfl, by simpa [hp] using hw, hk⟩
      | none =>
        rw [hs] at h
        exact ⟨[], c :: cs, rfl, by simp, h⟩
    · simp only [starK, hp, if_false] at h
      exact ⟨[], c :: cs, rfl, by simp, h⟩

theorem plusK_inv {p : Char → Bool} {k : List Char → Option α} {t : List Char} {a : α}
    (h : plusK p k t = some a) :
    ∃ w t', t = w ++ t' ∧ w ≠ [] ∧ (∀ c ∈ w, p c = true) ∧ k t' = some a := by
  cases t with
  | nil => exact absurd h (by simp [plusK])
  | cons c cs =>
    by_cases hp : p c
    · simp only [plusK, hp, if_true] at h
      obtain ⟨w, t', rfl, hw, hk⟩ := starK_inv h
      exact ⟨c :: w, t', rfl, by simp, by simpa [hp] using hw, hk⟩
    · simp [plusK, hp] at h

theorem groupPlusAux_inv {p : Char → Bool} {k : List Char → List Char → Option α}
    {acc t : List Char} {a : α} (h : groupPlusAux p k acc t = some a) :
    ∃ g t', t = g ++ t' ∧ g ≠ [] ∧ (∀ c ∈ g, p c = true) ∧ k (acc ++ g) t' = some a := by
  induction t generalizing acc with
  | nil => exact absurd h (by simp [groupPlusAux])
  | cons c cs ih =>
    by_cases hp : p c
    · simp only [groupPlusAux, hp, if_true] at h
      cases hs : groupPlusAux p k (acc ++ [c]) cs with
      | some b =>
        rw [hs] at h
        obtain ⟨g, t', rfl, hg, hgp, hk⟩ := ih (hs.trans h)
        exact ⟨c :: g, t', rfl, by simp, by simpa [hp] using hgp, by simpa using hk⟩
      | none =>
        rw [hs] at h
        exact ⟨[c], cs, rfl, by simp, by simp [hp], h⟩
    · simp [groupPlusAux, hp] at h

theorem groupPlusK_inv {p : Char → Bool} {k : List Char → List Char → Option α}
    {t : List Char} {a : α} (h : groupPlusK p k t = some a) :
    ∃ g t', t = g ++ t' ∧ g ≠ [] ∧ (∀ c ∈ g, p c = true) ∧ k g t' = some a := by
  obtain ⟨g, t', rfl, hg, hgp, hk⟩ := groupPlusAux_inv h
  exact ⟨g, t', rfl, hg, hgp, by simpa using hk⟩

theorem lazyDotK_inv {k : List Char → Option α} {t : List Char} {a : α}
    (h : lazyDotK k t = some a) : ∃ u t', t = u ++ t' ∧ k t' = some a := by
  induction t with
  | nil => exact ⟨[], [], rfl, h⟩
  | cons c cs ih =>
    simp only [lazyDotK] at h
    cases hk : k (c :: cs) with
    | some b =>
      rw [hk] at h
      exact ⟨[], c :: cs, rfl, hk.trans h⟩
    | none =>
      rw [hk] at h
      obtain ⟨u, t', rfl, h'⟩ := ih h
      exact ⟨c :: u, t', rfl, h'⟩

theorem lazyGroupAux_inv {k : List Char → List Char → Option α} {acc t : List Char} {a : α}
    (h : lazyGroupAux k acc t = some a) :
    ∃ u t', t = u ++ t' ∧ k (acc ++ u) t' = some a := by
  induction t generalizing acc with
  | nil => exact ⟨[], [], rfl, by simpa using h⟩
  | cons c cs ih =>
    simp only [lazyGroupAux] at h
    cases hk : k acc (c :: cs) with
    | some b =>
      rw [hk] at h
      exact ⟨[], c :: cs, rfl, by simpa using hk.trans h⟩
    | none =>
      rw [hk] at h
      obtain ⟨u, t', rfl, h'⟩ := ih h
      exact ⟨c :: u, t', rfl, by simpa using h'⟩

theorem reSearch_inv {step : List Char → Option α} {s : List Char} {a : α}
    (h : reSearch step s = some a) : ∃ u t, s = u ++ t ∧ step t = some a := by
  induction s with
  | nil => exact ⟨[], [], rfl, h⟩
  | cons c cs ih =>
    simp only [reSearch] at h
    cases hs : step (c :: cs) with
    | some b =>
      rw [hs] at h
      exact ⟨[], c :: cs, rfl, hs.trans h⟩
    | none =>
      rw [hs] at h
      obtain ⟨u, t, rfl, h'⟩ := ih h
      exact ⟨c :: u, t, rfl, h'⟩

theorem schemeK_inv {k : List Char → List Char → Option α} {t : List Char} {a : α}
    (h : schemeK k t = some a) :
    ∃ sch t', t = sch ++ t' ∧
      (sch = ("http://").toList ∨ sch = ("https://").toList) ∧ k sch t' = some a := by
  unfold schemeK at h
  split at h
  · next hp =>
    obtain ⟨t', rfl⟩ := (litPre_iff _ t).mp hp
    have hd : List.drop 8 ((("https://").toList) ++ t') = t' := rfl
    rw [hd] at h
    exact ⟨("https://").toList, t', rfl, Or.inr rfl, h⟩
  · split at h
    · next hp =>
      obtain ⟨t', rfl⟩ := (litPre_iff _ t).mp hp
      have hd : List.drop 7 ((("http://").toList) ++ t') = t' := rfl
      rw [hd] at h
      exact ⟨("http://").toList, t', rfl, Or.inl rfl, h⟩
    · exact absurd h (by simp)

/-! ## Helper lemmas about the extractor's structure -/

/-- Whether an `Except` run succeeded. -/
def isOkE : Except ε α → Bool
  | Except.ok _ => true
  | Except.error _ => false

theorem scorePart_ok {name content : List Char}
    (h : ∀ tok g2, reSearch (stepScore name) content = some (tok, g2) →
      (pyFloat? tok).isSome = true) :
    ∃ v, scorePart name content = Except.ok v := by
  unfold scorePart
  cases e : reSearch (stepScore name) content with
  | none => exact ⟨(zeroDec, []), rfl⟩
  | some p =>
    obtain ⟨tok, g2⟩ := p
    cases ef : pyFloat? tok with
    | none =>
      have := h tok g2 e
      rw [ef] at this
      simp at this
    | some q => exact ⟨(q, pyStrip g2), by simp only []; rw [ef]⟩

theorem stepSummary_litPre {t : List Char} {a : List Char}
    (h : stepSummary t = some a) : litPre nbHeading t = true := by
  unfold stepSummary at h
  obtain ⟨t', rfl, -⟩ := litK_inv h
  exact litPre_append _ _

theorem stepScore_litPre {name t : List Char} {a : List Char × List Char}
    (h : stepScore name t = some a) : litPre (headingOf name) t = true := by
  unfold stepScore at h
  obtain ⟨t', rfl, -⟩ := litK_inv h
  exact litPre_append _ _

theorem stepTweetSec_litPre {name t : List Char} {a : List Char}
    (h : stepTweetSec name t = some a) : litPre (headingOf name) t = true := by
  unfold stepTweetSec at h
  obtain ⟨t', rfl, -⟩ := litK_inv h
  exact litPre_append _ _

theorem reSearch_none_of_no_seg {step : List Char → Option α} {lit content : List Char}
    (hstep : ∀ t a, step t = some a → litPre lit t = true)
    (hseg : isSeg lit content = false) : reSearch step content = none := by
  cases e : reSearch step content with
  | none => rfl
  | some a =>
    obtain ⟨u, t, rfl, hs⟩ := reSearch_inv e
    obtain ⟨v, rfl⟩ := (litPre_iff _ _).mp (hstep t a hs)
    exact absurd (isSeg_of_occurs lit u v) (by simp [List.append_assoc, hseg])

theorem no_ws_of_all {l : List Char} (h : l.all (fun ch => !(pyIsSpace ch)) = true) :
    ∀ ch ∈ l, pyIsSpace ch = false := by
  intro ch hch
  have := List.all_eq_true.mp h ch hch
  simpa using this

theorem pyStrip_eq_self {s : List Char} (h : ∀ c ∈ s, pyIsSpace c = false) :
    pyStrip s = s := by
  unfold pyStrip
  have h1 : s.dropWhile pyIsSpace = s := by
    cases s with
    | nil => rfl
    | cons a l => simp [List.dropWhile, h a (by simp)]
  rw [h1]
  have h2 : s.reverse.dropWhile pyIsSpace = s.reverse := by
    cases hr : s.reverse with
    | nil => rfl
    | cons a l =>
      have ha : a ∈ s := by
        rw [← List.mem_reverse, hr]
        simp
    
      simp [List.dropWhile, h a ha]
  rw [h2, List.reverse_reverse]

/-- The fields of a successfully extracted report, in terms of the component
extractors. -/
theorem analyze_extract_ok_inv {content : List Char} {r : SentimentReport}
    (h : analyze_extract content = Except.ok r) :
    ∃ lq ls cq cs2 rq rs,
      scorePart leftName content = Except.ok (lq, ls) ∧
      scorePart centerName content = Except.ok (cq, cs2) ∧
      scorePart rightName content = Except.ok (rq, rs) ∧
      r = { nonBiasedSummary := summaryPart content
            left := ⟨lq, ls, extract_tweets leftName content⟩
            center := ⟨cq, cs2, extract_tweets centerName content⟩
            right := ⟨rq, rs, extract_tweets rightName content⟩ } := by
  unfold analyze_extract at h
  cases e1 : scorePart leftName content with
  | error e => rw [e1] at h; exact absurd h (by simp)
  | ok v1 =>
    obtain ⟨lq, ls⟩ := v1
    rw [e1] at h
    cases e2 : scorePart centerName content with
    | error e => rw [e2] at h; exact absurd h (by simp)
    | ok v2 =>
      obtain ⟨cq, cs2⟩ := v2
      rw [e2] at h
      cases e3 : scorePart rightName content with
      | error e => rw [e3] at h; exact absurd h (by simp)
      | ok v3 =>
        obtain ⟨rq, rs⟩ := v3
        rw [e3] at h
        simp only [Except.ok.injEq] at h
        exact ⟨lq, ls, cq, cs2, rq, rs, rfl, rfl, rfl, h.symm⟩

/-- Every citation produced by one tweet-entry match has a URL that starts
with an http or https scheme and contains no whitespace. -/
theorem stepTweet_url_shape {s : List Char} {cit : Citation} {rest : List Char}
    (h : stepTweet s = some (cit, rest)) :
    (litPre (("http://").toList) cit.url || litPre (("https://").toList) cit.url) = true ∧
      ∀ ch ∈ cit.url, pyIsSpace ch = false := by
  unfold stepTweet at h
  split at h
  · exact absurd h (by simp)
  · obtain ⟨t1, -, h⟩ := charK_inv h
    obtain ⟨w1, t2, -, -, -, h⟩ := plusK_inv h
    obtain ⟨t3, -, h⟩ := litK_inv h
    obtain ⟨w2, t4, -, -, h⟩ := starK_inv h
    obtain ⟨g1, t5, -, -, -, h⟩ := groupPlusK_inv h
    obtain ⟨w3, t6, -, -, -, h⟩ := plusK_inv h
    obtain ⟨t7, -, h⟩ := litK_inv h
    obtain ⟨w4, t8, -, -, h⟩ := starK_inv h
    obtain ⟨g2, t9, -, -, -, h⟩ := groupPlusK_inv h
    obtain ⟨w5, t10, -, -, -, h⟩ := plusK_inv h
    obtain ⟨t11, -, h⟩ := litK_inv h
    obtain ⟨w6, t12, -, -, h⟩ := starK_inv h
    obtain ⟨sch, t13, -, hsch, h⟩ := schemeK_inv h
    obtain ⟨g3, t14, -, hg3ne, hg3, h⟩ := groupPlusK_inv h
    injection h with h'
    injection h' with hcit hrest
    subst hcit
    have hall : ∀ ch ∈ sch ++ g3, pyIsSpace ch = false := by
      intro ch hch
      rcases List.mem_append.mp hch with hc | hc
      · rcases hsch with rfl | rfl
        · exact no_ws_of_all (by decide) ch hc
        · exact no_ws_of_all (by decide) ch hc
      · have := hg3 ch hc
        unfold notWs at this
        simpa using this
    have hurl : Citation.url ⟨pyStrip g1, pyStrip g2, pyStrip (sch ++ g3)⟩ = sch ++ g3 :=
      pyStrip_eq_self hall
    rw [hurl]
    refine ⟨?_, hall⟩
    rw [Bool.or_eq_true]
    rcases hsch with rfl | rfl
    · exact Or.inl (litPre_append _ _)
    · exact Or.inr (litPre_append _ _)

theorem finditerAux_url_shape {fuel : Nat} {s : List Char} {cit : Citation}
    (h : cit ∈ finditerAux fuel s) :
    (litPre (("http://").toList) cit.url || litPre (("https://").toList) cit.url) = true ∧
      ∀ ch ∈ cit.url, pyIsSpace ch = false := by
  induction fuel generalizing s with
  | zero => simp [finditerAux] at h
  | succ fuel ih =>
    cases s with
    | nil => simp [finditerAux] at h
    | cons c cs =>
      simp only [finditerAux] at h
      cases hs : stepTweet (c :: cs) with
      | some p =>
        rw [hs] at h
        rcases List.mem_cons.mp h with rfl | h'
        · exact stepTweet_url_shape hs
        · exact ih h'
      | none =>
        rw [hs] at h
        exact ih h

theorem extract_tweets_url_shape {name content : List Char} {cit : Citation}
    (h : cit ∈ extract_tweets name content) :
    (litPre (("http://").toList) cit.url || litPre (("https://").toList) cit.url) = true ∧
      ∀ ch ∈ cit.url, pyIsSpace ch = false := by
  unfold extract_tweets at h
  cases e : reSearch (stepTweetSec name) content with
  | none => rw [e] at h; simp at h
  | some span =>
    rw [e] at h
    exact finditerAux_url_shape h

/-! ## Claim C1 -/

/-- A response on which the score pattern matches with captured token `.`,
which `float` cannot convert. -/
def c1cex : List Char := ("### Left\n**Score:** .\nx\n**Example Tweets").toList

/-- C1 (counterexample): the claim that the extractor can never raise is
false: on `c1cex` the left score pattern matches with token `.`, and the
`float` conversion raises `ValueError`, so extraction fails instead of
degrading to defaults. -/
theorem c1_counterexample : analyze_extract c1cex = Except.error (floatError ((".").toList)) :=
  rfl

/-- C1 (amended): the only exception the extractor can raise is the `float`
conversion of a captured score token; whenever each perspective score match
captures a token `float` accepts, extraction succeeds — in particular every
other field extraction is total and missing fields keep their defaults. -/
theorem c1_extract_raises_only_on_bad_float_token (content : List Char)
    (hL : ∀ tok g2, reSearch (stepScore leftName) content = some (tok, g2) →
      (pyFloat? tok).isSome = true)
    (hC : ∀ tok g2, reSearch (stepScore centerName) content = some (tok, g2) →
      (pyFloat? tok).isSome = true)
    (hR : ∀ tok g2, reSearch (stepScore rightName) content = some (tok, g2) →
      (pyFloat? tok).isSome = true) :
    isOkE (analyze_extract content) = true := by
  obtain ⟨vL, eL⟩ := scorePart_ok hL
  obtain ⟨vC, eC⟩ := scorePart_ok hC
  obtain ⟨vR, eR⟩ := scorePart_ok hR
  obtain ⟨lq, ls⟩ := vL
  obtain ⟨cq, cs2⟩ := vC
  obtain ⟨rq, rs⟩ := vR
  unfold analyze_extract
  rw [eL, eC, eR]
  rfl

/-- Witness for C1: on the text `x` no score pattern matches, and extraction
succeeds. -/
theorem c1_theorem_witness : isOkE (analyze_extract (("x").toList)) = true :=
  c1_extract_raises_only_on_bad_float_token (("x").toList)
    (fun _ _ h => Option.noConfusion
      (h.symm.trans (rfl : reSearch (stepScore leftName) (("x").toList) = none)))
    (fun _ _ h => Option.noConfusion
      (h.symm.trans (rfl : reSearch (stepScore centerName) (("x").toList) = none)))
    (fun _ _ h => Option.noConfusion
      (h.symm.trans (rfl : reSearch (stepScore rightName) (("x").toList) = none)))

/-! ## Claim C2 -/

/-- C2: on any text containing none of the four expected headings (in
particular the empty string or a totally unrelated text), every pattern fails,
extraction does not raise, and the result is the all-defaults report. -/
theorem c2_unrelated_text_all_defaults (content : List Char)
    (h1 : isSeg nbHeading content = false)
    (h2 : isSeg (headingOf leftName) content = false)
    (h3 : isSeg (headingOf centerName) content = false)
    (h4 : isSeg (headingOf rightName) content = false) :
    analyze_extract content = Except.ok defaultReport := by
  have es : reSearch stepSummary content = none :=
    reSearch_none_of_no_seg (fun t a h => stepSummary_litPre h) h1
  have eL : reSearch (stepScore leftName) content = none :=
    reSearch_none_of_no_seg (fun t a h => stepScore_litPre h) h2
  have eC : reSearch (stepScore centerName) content = none :=
    reSearch_none_of_no_seg (fun t a h => stepScore_litPre h) h3
  have eR : reSearch (stepScore rightName) content = none :=
    reSearch_none_of_no_seg (fun t a h => stepScore_litPre h) h4
  have eLt : reSearch (stepTweetSec leftName) content = none :=
    reSearch_none_of_no_seg (fun t a h => stepTweetSec_litPre h) h2
  have eCt : reSearch (stepTweetSec centerName) content = none :=
    reSearch_none_of_no_seg (fun t a h => stepTweetSec_litPre h) h3
  have eRt : reSearch (stepTweetSec rightName) content = none :=
    reSearch_none_of_no_seg (fun t a h => stepTweetSec_litPre h) h4
  unfold analyze_extract scorePart extract_tweets summaryPart
  rw [es, eL, eC, eR, eLt, eCt, eRt]
  rfl

/-- Witness for C2 at the unrelated text `hello`. -/
theorem c2_theorem_witness :
    (isSeg nbHeading (("hello").toList) = false ∧
      isSeg (headingOf leftName) (("hello").toList) = false ∧
      isSeg (headingOf centerName) (("hello").toList) = false ∧
      isSeg (headingOf rightName) (("hello").toList) = false) ∧
    analyze_extract (("hello").toList) = Except.ok defaultReport :=
  ⟨⟨by decide, by decide, by decide, by decide⟩,
    c2_unrelated_text_all_defaults (("hello").toList)
      (by decide) (by decide) (by decide) (by decide)⟩

/-! ## Claim C9 -/

/-- C9: in any successfully extracted report, every citation URL of every
perspective starts with `http://` or `https://` and contains no whitespace
character. -/
theorem c9_urls_have_scheme_and_no_whitespace (content : List Char) (r : SentimentReport)
    (h : analyze_extract content = Except.ok r) :
    ([r.left, r.center, r.right].all fun pv =>
      pv.tweets.all fun cit =>
        (litPre (("http://").toList) cit.url || litPre (("https://").toList) cit.url) &&
          cit.url.all (fun ch => !(pyIsSpace ch))) = true := by
  obtain ⟨lq, ls, cq, cs2, rq, rs, -, -, -, rfl⟩ := analyze_extract_ok_inv h
  rw [List.all_eq_true]
  intro pv hpv
  rw [List.all_eq_true]
  intro cit hcit
  simp only [List.mem_cons, List.not_mem_nil, or_false] at hpv
  have hshape :
      (litPre (("http://").toList) cit.url || litPre (("https://").toList) cit.url) = true ∧
        ∀ ch ∈ cit.url, pyIsSpace ch = false := by
    rcases hpv with rfl | rfl | rfl
    · exact extract_tweets_url_shape hcit
    · exact extract_tweets_url_shape hcit
    · exact extract_tweets_url_shape hcit
  rw [Bool.and_eq_true]
  refine ⟨hshape.1, List.all_eq_true.mpr fun ch hch => ?_⟩
  simp [hshape.2 ch hch]

/-- A well-formed single-perspective response used as the C9 witness. -/
def c9wContent : List Char :=
  ("### Left\n**Score:** 1\nr\n**Example Tweets:**\n1. **Account:** a\n **Tweet Text:** t\n **Link:** https://u\n").toList

/-- The report extracted from `c9wContent`. -/
def c9wReport : SentimentReport :=
  { nonBiasedSummary := []
    left := ⟨⟨1, 0⟩, ("r").toList, [⟨("a").toList, ("t").toList, ("https://u").toList⟩]⟩
    center := ⟨zeroDec, [], []⟩
    right := ⟨zeroDec, [], []⟩ }

/-- Witness for C9 at a concrete response with one citation. -/
theorem c9_theorem_witness :
    analyze_extract c9wContent = Except.ok c9wReport ∧
    ([c9wReport.left, c9wReport.center, c9wReport.right].all fun pv =>
      pv.tweets.all fun cit =>
        (litPre (("http://").toList) cit.url || litPre (("https://").toList) cit.url) &&
          cit.url.all (fun ch => !(pyIsSpace ch))) = true :=
  ⟨rfl, c9_urls_have_scheme_and_no_whitespace c9wContent c9wReport rfl⟩

/-! ## Claim C10 -/

/-- A response whose left tweet list has four well-formed entries. -/
def c10content : List Char :=
  ("### Left\n**Score:** 0.5\nr\n**Example Tweets:**\n1. **Account:** a1\n **Tweet Text:** t1\n **Link:** https://u1\n2. **Account:** a2\n **Tweet Text:** t2\n **Link:** https://u2\n3. **Account:** a3\n **Tweet Text:** t3\n **Link:** https://u3\n4. **Account:** a4\n **Tweet Text:** t4\n **Link:** https://u4\n").toList

/-- The report extracted from `c10content`: all four citations appear. -/
def c10report : SentimentReport :=
  { nonBiasedSummary := []
    left := ⟨⟨5, 1⟩, ("r").toList,
      [⟨("a1").toList, ("t1").toList, ("https://u1").toList⟩,
       ⟨("a2").toList, ("t2").toList, ("https://u2").toList⟩,
       ⟨("a3").toList, ("t3").toList, ("https://u3").toList⟩,
       ⟨("a4").toList, ("t4").toList, ("https://u4").toList⟩]⟩
    center := ⟨zeroDec, [], []⟩
    right := ⟨zeroDec, [], []⟩ }

/-- C10: the extractor imposes no upper bound of three on citations: on
`c10content`, whose left tweet span has four well-formed numbered entries,
the returned left tweets list has more than three citations. -/
theorem c10_no_upper_bound_on_citations :
    analyze_extract c10content = Except.ok c10report ∧
      3 < c10report.left.tweets.length :=
  ⟨rfl, by decide⟩

/-! ## Claim C6 -/

/-- The literal JSON line printed for a usage error. -/
def usageLineLit : List Char :=
  ("\x7b\"error\": \"Usage: analyze-sentiment-xai.py <title> <url>\"\x7d").toList

/-- C6: with fewer than two positional arguments (`len(sys.argv) < 3`), the
program prints exactly the usage JSON object to standard output (nothing to
standard error), exits with status 1, and never makes the model call. -/
theorem c6_usage_error_stdout_exit1 (argv : List (List Char))
    (upstream : Except (List Char) (List Char)) (h : argv.length < 3) :
    mainRun argv upstream =
      { stdoutLines := [usageLineLit], stderrLines := [], exitCode := 1,
        upstreamCalled := false } := by
  unfold mainRun
  rw [if_pos h]
  have he : errObjLine usageMsg = usageLineLit := by decide
  rw [he]

/-- Witness for C6 at a one-element argument vector. -/
theorem c6_theorem_witness :
    [(("p").toList)].length < 3 ∧
    mainRun [(("p").toList)] (Except.ok []) =
      { stdoutLines := [usageLineLit], stderrLines := [], exitCode := 1,
        upstreamCalled := false } :=
  ⟨by decide, c6_usage_error_stdout_exit1 [(("p").toList)] (Except.ok []) (by decide)⟩

/-! ## Claim C7 -/

/-- C7: with two positional arguments, an exception from the analysis yields
exactly the error object on standard error with exit status 1 and nothing on
standard output; success yields exactly the indented report on standard
output with exit status 0 and nothing on standard error; no run emits on both
streams. -/
theorem c7_success_xor_error_channels (argv : List (List Char))
    (upstream : Except (List Char) (List Char)) (h : 3 ≤ argv.length) :
    mainRun argv upstream =
      (match analyze_sentiment upstream with
       | Except.error e =>
         { stdoutLines := [], stderrLines := [errObjLine e], exitCode := 1,
           upstreamCalled := true }
       | Except.ok r =>
         { stdoutLines := [reportDump r], stderrLines := [], exitCode := 0,
           upstreamCalled := true }) ∧
    ((mainRun argv upstream).stdoutLines = [] ∨ (mainRun argv upstream).stderrLines = []) := by
  have hlt : ¬ argv.length < 3 := by omega
  unfold mainRun
  rw [if_neg hlt]
  cases hA : analyze_sentiment upstream with
  | error e => exact ⟨rfl, Or.inl rfl⟩
  | ok r => exact ⟨rfl, Or.inr rfl⟩

/-- Witness for C7 at a three-element argument vector and a failing upstream
call. -/
theorem c7_theorem_witness :
    mainRun [(("p").toList), (("t").toList), (("u").toList)]
        (Except.error (("boom").toList)) =
      (match analyze_sentiment (Except.error (("boom").toList)) with
       | Except.error e =>
         { stdoutLines := [], stderrLines := [errObjLine e], exitCode := 1,
           upstreamCalled := true }
       | Except.ok r =>
         { stdoutLines := [reportDump r], stderrLines := [], exitCode := 0,
           upstreamCalled := true }) ∧
    ((mainRun [(("p").toList), (("t").toList), (("u").toList)]
        (Except.error (("boom").toList))).stdoutLines = [] ∨
      (mainRun [(("p").toList), (("t").toList), (("u").toList)]
        (Except.error (("boom").toList))).stderrLines = []) :=
  c7_success_xor_error_channels _ _ (by decide)

/-! ## Claim C8 -/

/-- Prepending text in which the pattern matches at no position does not
change the search result: `re.search` uses the leftmost start position at
which the whole pattern matches. -/
theorem reSearch_append_of_none {step : List Char → Option α} (pre s : List Char)
    (h : ∀ i < pre.length, step ((pre ++ s).drop i) = none) :
    reSearch step (pre ++ s) = reSearch step s := by
  induction pre with
  | nil => simp
  | cons c cs ih =>
    have h0 : step (c :: (cs ++ s)) = none := by simpa using h 0 (by simp)
    simp only [List.cons_append, reSearch, List.append_eq, h0]
    exact ih (fun i hi => by simpa using h (i + 1) (by simpa using Nat.succ_lt_succ hi))

theorem step_none_of_not_litPre {step : List Char → Option α} {lit t : List Char}
    (hstep : ∀ a, step t = some a → litPre lit t = true) (h : litPre lit t = false) :
    step t = none := by
  cases e : step t with
  | none => rfl
  | some a => simp [hstep a e] at h

/-- C8: each of the extractor's searches has first-match semantics.  If none
of the positions inside `pre` starts the pattern's heading, the search result
on `pre ++ s` equals the search result on `s` — so when a heading occurs more
than once, what is extracted from the whole text is exactly what would be
extracted from the text starting at the first occurrence, never the last
occurrence and never a merge of several. -/
theorem c8_first_occurrence_semantics (pre s name : List Char)
    (hnb : ∀ i < pre.length, litPre nbHeading ((pre ++ s).drop i) = false)
    (hname : ∀ i < pre.length, litPre (headingOf name) ((pre ++ s).drop i) = false) :
    reSearch stepSummary (pre ++ s) = reSearch stepSummary s ∧
    reSearch (stepScore name) (pre ++ s) = reSearch (stepScore name) s ∧
    reSearch (stepTweetSec name) (pre ++ s) = reSearch (stepTweetSec name) s := by
  refine ⟨?_, ?_, ?_⟩
  · exact reSearch_append_of_none pre s (fun i hi =>
      step_none_of_not_litPre (fun a ha => stepSummary_litPre ha) (hnb i hi))
  · exact reSearch_append_of_none pre s (fun i hi =>
      step_none_of_not_litPre (fun a ha => stepScore_litPre ha) (hname i hi))
  · exact reSearch_append_of_none pre s (fun i hi =>
      step_none_of_not_litPre (fun a ha => stepTweetSec_litPre ha) (hname i hi))

/-- Witness for C8: a prefix `x ` before a text whose heading occurs twice. -/
theorem c8_theorem_witness :
    reSearch stepSummary ((("x ").toList) ++ (("### Left\nA\n### Left\nB\n").toList)) =
      reSearch stepSummary (("### Left\nA\n### Left\nB\n").toList) ∧
    reSearch (stepScore leftName)
        ((("x ").toList) ++ (("### Left\nA\n### Left\nB\n").toList)) =
      reSearch (stepScore leftName) (("### Left\nA\n### Left\nB\n").toList) ∧
    reSearch (stepTweetSec leftName)
        ((("x ").toList) ++ (("### Left\nA\n### Left\nB\n").toList)) =
      reSearch (stepTweetSec leftName) (("### Left\nA\n### Left\nB\n").toList) :=
  c8_first_occurrence_semantics (("x ").toList) (("### Left\nA\n### Left\nB\n").toList)
    leftName (by decide) (by decide)

/-! ## Character facts -/

theorem pyIsSpace_true_elim {c : Char} (h : pyIsSpace c = true) :
    c = ' ' ∨ c = '\t' ∨ c = '\n' ∨ c = '\r' ∨ c = Char.ofNat 11 ∨ c = Char.ofNat 12 := by
  unfold pyIsSpace at h
  simp only [Bool.or_eq_true, beq_iff_eq] at h
  tauto

theorem isDigit_not_ws {c : Char} (h : c.isDigit = true) : pyIsSpace c = false := by
  cases hw : pyIsSpace c
  · rfl
  · rcases pyIsSpace_true_elim hw with rfl | rfl | rfl | rfl | rfl | rfl <;>
      exact absurd h (by decide)

theorem ne_of_digit_ne {c d : Char} (h : c.isDigit = true) (hd : d.isDigit = false) :
    c ≠ d := by
  intro he
  rw [he, hd] at h
  cases h

theorem ne_of_ws_ne {c d : Char} (h : pyIsSpace c = false) (hd : pyIsSpace d = true) :
    c ≠ d := by
  intro he
  rw [he, hd] at h
  cases h

theorem scoreClass_not_ws {c : Char} (h : scoreClass c = true) : pyIsSpace c = false := by
  unfold scoreClass at h
  simp only [Bool.or_eq_true, beq_iff_eq] at h
  rcases h with (rfl | hd) | rfl
  · decide
  · exact isDigit_not_ws hd
  · decide

theorem scoreClass_ne_hash {c : Char} (h : scoreClass c = true) : c ≠ '#' := by
  unfold scoreClass at h
  simp only [Bool.or_eq_true, beq_iff_eq] at h
  rcases h with (rfl | hd) | rfl
  · decide
  · exact ne_of_digit_ne hd (by decide)
  · decide

theorem scoreClass_ne_star {c : Char} (h : scoreClass c = true) : c ≠ '*' := by
  unfold scoreClass at h
  simp only [Bool.or_eq_true, beq_iff_eq] at h
  rcases h with (rfl | hd) | rfl
  · decide
  · exact ne_of_digit_ne hd (by decide)
  · decide

theorem scoreClass_ne_nl {c : Char} (h : scoreClass c = true) : c ≠ '\n' :=
  ne_of_ws_ne (scoreClass_not_ws h) (by decide)

/-! ## Occurrence safety: the pattern's leading literal matches at no position -/

/-- `SafeFor lit u`: the literal `lit` begins at no position inside `u`, even
allowing it to continue into any text appended after `u`. -/
def SafeFor (lit u : List Char) : Prop :=
  ∀ i < u.length, ∀ t, litPre lit (u.drop i ++ t) = false

theorem safe_nil {lit : List Char} : SafeFor lit [] := by
  intro i hi
  simp at hi

theorem safe_append {lit u v : List Char} (hu : SafeFor lit u) (hv : SafeFor lit v) :
    SafeFor lit (u ++ v) := by
  intro i hi t
  rcases Nat.lt_or_ge i u.length with h | h
  · rw [List.drop_append_of_le_length (Nat.le_of_lt h), List.append_assoc]
    exact hu i h (v ++ t)
  · obtain ⟨j, rfl⟩ : ∃ j, i = u.length + j := ⟨i - u.length, by omega⟩
    rw [List.drop_append]
    have hj : j < v.length := by
      rw [List.length_append] at hi
      omega
    exact hv j hj t

/-- A visible mismatch between `lit` and the available prefix `x` (at some
index below `x.length`). -/
def mism : List Char → List Char → Bool
  | _, [] => false
  | [], _ => false
  | a :: as, b :: bs => !(a == b) || mism as bs

theorem litPre_false_of_mism {lit x : List Char} (h : mism lit x = true) (t : List Char) :
    litPre lit (x ++ t) = false := by
  induction lit generalizing x with
  | nil => cases x <;> simp [mism] at h
  | cons a as ih =>
    cases x with
    | nil => simp [mism] at h
    | cons b bs =>
      simp only [mism, Bool.or_eq_true, Bool.not_eq_eq_eq_not, Bool.not_true] at h
      rcases h with hne | hm
      · simp [litPre, hne]
      · cases hab : a == b
        · simp [litPre, hab]
        · simp [litPre, hab, ih hm]

/-- Checker: `lit` mismatches visibly at every start position of the concrete
block `x`. -/
def blockSafe (lit x : List Char) : Bool :=
  (List.range x.length).all fun i => mism lit (x.drop i)

theorem safe_of_blockSafe {lit x : List Char} (hb : blockSafe lit x = true) :
    SafeFor lit x := by
  intro i hi t
  exact litPre_false_of_mism (List.all_eq_true.mp hb i (List.mem_range.mpr hi)) t

theorem litPre_false_head {lit t : List Char} {h c : Char}
    (hl : lit.head? = some h) (ht : t.head? = some c) (hne : c ≠ h) :
    litPre lit t = false := by
  cases lit with
  | nil => simp at hl
  | cons a as =>
    cases t with
    | nil => rfl
    | cons b bs =>
      simp only [List.head?_cons, Option.some.injEq] at hl ht
      have hab : (a == b) = false := by
        simp only [beq_eq_false_iff_ne, ne_eq]
        intro e
        exact hne (by rw [← ht, ← e, hl])
      simp [litPre, hab]

theorem mem_head_drop_append {u : List Char} {i : Nat} (hi : i < u.length) (t : List Char) :
    ∃ c, ((u.drop i ++ t).head? = some c ∧ c ∈ u) := by
  cases hd : u.drop i with
  | nil =>
    exfalso
    have := List.drop_eq_nil_iff.mp hd
    omega
  | cons c cs =>
    refine ⟨c, by simp [hd], ?_⟩
    have hcm : c ∈ u.drop i := by simp [hd]
    exact List.mem_of_mem_drop hcm

/-- If no character of `u` equals the head of `lit`, the literal starts
nowhere inside `u`. -/
theorem safe_of_no_head {lit u : List Char} {h : Char}
    (hl : lit.head? = some h) (hu : ∀ c ∈ u, c ≠ h) : SafeFor lit u := by
  intro i hi t
  obtain ⟨c, hc, hcm⟩ := mem_head_drop_append hi t
  exact litPre_false_head hl hc (hu c hcm)

/-! ## Positive evaluation lemmas for the combinators -/

theorem litK_eval (lit : List Char) (k : List Char → Option α) (t : List Char) :
    litK lit k (lit ++ t) = k t := by
  unfold litK
  rw [if_pos (litPre_append lit t), drop_len_append]

theorem charK_eval (c : Char) (k : List Char → Option α) (t : List Char) :
    charK c k (c :: t) = k t := by
  simp [charK]

theorem starK_eval {p : Char → Bool} {k : List Char → Option α} {w t : List Char} {a : α}
    (hw : ∀ c ∈ w, p c = true)
    (ht : ∀ c, t.head? = some c → p c = false)
    (hk : k t = some a) : starK p k (w ++ t) = some a := by
  induction w with
  | nil =>
    cases t with
    | nil => simpa [starK] using hk
    | cons b bs =>
      have hb : p b = false := ht b rfl
      simpa [starK, hb] using hk
  | cons c cs ih =>
    have hc : p c = true := hw c (by simp)
    have ih' := ih (fun x hx => hw x (by simp [hx]))
    simp only [List.cons_append, starK, hc, if_true, List.append_eq, ih']

theorem plusK_eval {p : Char → Bool} {k : List Char → Option α} {w t : List Char} {a : α}
    (hne : w ≠ []) (hw : ∀ c ∈ w, p c = true)
    (ht : ∀ c, t.head? = some c → p c = false)
    (hk : k t = some a) : plusK p k (w ++ t) = some a := by
  cases w with
  | nil => exact absurd rfl hne
  | cons c cs =>
    have hc : p c = true := hw c (by simp)
    simp only [List.cons_append, plusK, hc, if_true]
    exact starK_eval (fun x hx => hw x (by simp [hx])) ht hk

theorem groupPlusAux_none_head {p : Char → Bool} {k : List Char → List Char → Option α}
    {acc t : List Char} (ht : ∀ c, t.head? = some c → p c = false) :
    groupPlusAux p k acc t = none := by
  cases t with
  | nil => rfl
  | cons b bs => simp [groupPlusAux, ht b rfl]

theorem groupPlusAux_eval {p : Char → Bool} {k : List Char → List Char → Option α}
    {g t : List Char} {a : α} (acc : List Char)
    (hne : g ≠ []) (hg : ∀ c ∈ g, p c = true)
    (ht : ∀ c, t.head? = some c → p c = false)
    (hk : k (acc ++ g) t = some a) : groupPlusAux p k acc (g ++ t) = some a := by
  induction g generalizing acc with
  | nil => exact absurd rfl hne
  | cons c cs ih =>
    have hc : p c = true := hg c (by simp)
    simp only [List.cons_append, groupPlusAux, hc, if_true, List.append_eq]
    cases cs with
    | nil =>
      rw [List.nil_append, groupPlusAux_none_head ht]
      simpa using hk
    | cons d ds =>
      have hk' : k ((acc ++ [c]) ++ (d :: ds)) t = some a := by
        simpa [List.append_assoc] using hk
      have := ih (acc ++ [c]) (by simp) (fun x hx => hg x (by simp [hx])) hk'
      rw [this]

theorem groupPlusK_eval {p : Char → Bool} {k : List Char → List Char → Option α}
    {g t : List Char} {a : α}
    (hne : g ≠ []) (hg : ∀ c ∈ g, p c = true)
    (ht : ∀ c, t.head? = some c → p c = false)
    (hk : k g t = some a) : groupPlusK p k (g ++ t) = some a :=
  groupPlusAux_eval [] hne hg ht (by simpa using hk)

theorem lazyDotK_eval_here {k : List Char → Option α} {t : List Char} {a : α}
    (hk : k t = some a) : lazyDotK k t = some a := by
  cases t <;> simp [lazyDotK, hk]

theorem lazyDotK_eval {k : List Char → Option α} {u t : List Char} {a : α}
    (hu : ∀ i < u.length, k (u.drop i ++ t) = none)
    (hk : k t = some a) : lazyDotK k (u ++ t) = some a := by
  induction u with
  | nil => exact lazyDotK_eval_here hk
  | cons c cs ih =>
    have h0 : k (c :: (cs ++ t)) = none := by simpa using hu 0 (by simp)
    simp only [List.cons_append, lazyDotK, List.append_eq, h0]
    exact ih (fun i hi => by simpa using hu (i + 1) (by simpa using Nat.succ_lt_succ hi))

theorem lazyGroupAux_eval {k : List Char → List Char → Option α} {u t : List Char} {a : α}
    (acc : List Char)
    (hu : ∀ i < u.length, k (acc ++ u.take i) (u.drop i ++ t) = none)
    (hk : k (acc ++ u) t = some a) : lazyGroupAux k acc (u ++ t) = some a := by
  induction u generalizing acc with
  | nil =>
    cases t with
    | nil => simpa [lazyGroupAux] using hk
    | cons c cs =>
      have hk' : k acc (c :: cs) = some a := by simpa using hk
      simp [lazyGroupAux, hk']
  | cons c cs ih =>
    have h0 : k acc (c :: (cs ++ t)) = none := by simpa using hu 0 (by simp)
    simp only [List.cons_append, lazyGroupAux, List.append_eq, h0]
    refine ih (acc ++ [c]) (fun i hi => ?_) (by simpa [List.append_assoc] using hk)
    have := hu (i + 1) (by simpa using Nat.succ_lt_succ hi)
    simpa [List.append_assoc] using this

theorem reSearch_pos {step : List Char → Option α} {s : List Char} {a : α}
    (h : step s = some a) : reSearch step s = some a := by
  cases s <;> simp [reSearch, h]

/-- Skip a prefix in which the pattern's leading literal never starts. -/
theorem reSearch_skip {step : List Char → Option α} {lit : List Char}
    (hstep : ∀ t a, step t = some a → litPre lit t = true)
    {u : List Char} (s : List Char) (hu : SafeFor lit u) :
    reSearch step (u ++ s) = reSearch step s := by
  refine reSearch_append_of_none u s (fun i hi => ?_)
  refine step_none_of_not_litPre (fun a ha => hstep _ a ha) ?_
  rw [List.drop_append_of_le_length (Nat.le_of_lt hi)]
  exact hu i hi s

theorem takeWhile_append_of {p : Char → Bool} {u t : List Char}
    (hu : ∀ c ∈ u, p c = true) (ht : ∀ c, t.head? = some c → p c = false) :
    (u ++ t).takeWhile p = u := by
  induction u with
  | nil =>
    cases t with
    | nil => rfl
    | cons b bs => simp [List.takeWhile_cons, ht b rfl]
  | cons c cs ih =>
    have hc : p c = true := hu c (by simp)
    simp [List.takeWhile_cons, hc, ih (fun x hx => hu x (by simp [hx]))]

theorem dropWhile_append_of_exists {p : Char → Bool} {s t : List Char}
    (h : ∃ c ∈ s, p c = false) : (s ++ t).dropWhile p = s.dropWhile p ++ t := by
  induction s with
  | nil => simp at h
  | cons a as ih =>
    by_cases hp : p a = true
    · have h' : ∃ c ∈ as, p c = false := by
        obtain ⟨c, hm, hc⟩ := h
        rcases List.mem_cons.mp hm with rfl | hm'
        · rw [hp] at hc; cases hc
        · exact ⟨c, hm', hc⟩
      simp [List.dropWhile_cons, hp, ih h']
    · simp only [Bool.not_eq_true] at hp
      simp [List.dropWhile_cons, hp]

theorem pyStrip_append_newline (s : List Char) : pyStrip (s ++ ['\n']) = pyStrip s := by
  by_cases hall : ∀ c ∈ s, pyIsSpace c = true
  · have h1 : (s ++ ['\n']).dropWhile pyIsSpace = [] := by
      rw [List.dropWhile_eq_nil_iff]
      intro x hx
      rcases List.mem_append.mp hx with hx' | hx'
      · exact hall x hx'
      · simp only [List.mem_singleton] at hx'
        subst hx'
        decide
    have h2 : s.dropWhile pyIsSpace = [] := by
      rw [List.dropWhile_eq_nil_iff]
      exact hall
    unfold pyStrip
    rw [h1, h2]
  · have hex : ∃ c ∈ s, pyIsSpace c = false := by
      push_neg at hall
      obtain ⟨c, hm, hc⟩ := hall
      exact ⟨c, hm, by simpa using hc⟩
    unfold pyStrip
    rw [dropWhile_append_of_exists hex, List.reverse_append]
    simp only [List.reverse_cons, List.reverse_nil, List.nil_append, List.singleton_append]
    rw [List.dropWhile_cons, if_pos (by decide : pyIsSpace '\n' = true)]

/-! ## A structured family of responses

`buildResponse` renders structured data into exactly the markdown shape the
prompt requests; the well-formedness side conditions keep body text from
colliding with the headings and labels the patterns look for. -/

/-- One numbered tweet-list entry; the three `has*` flags control which
labeled fields its rendering contains (a well-formed entry has all three). -/
structure Entry where
  num : List Char
  account : List Char
  text : List Char
  linkTail : List Char
  hasAccount : Bool
  hasText : Bool
  hasLink : Bool

/-- The rendering of one entry: `N. ` then the present labeled fields, each
on its own line. -/
def renderEntry (e : Entry) : List Char :=
  e.num ++ '.' :: ' ' ::
    ((if e.hasAccount then accountLabel ++ ' ' :: e.account ++ ['\n'] else []) ++
     ((if e.hasText then tweetTextLabel ++ ' ' :: e.text ++ ['\n'] else []) ++
      (if e.hasLink then linkLabel ++ ' ' :: ("https://").toList ++ e.linkTail ++ ['\n']
       else [])))

/-- An entry with all three labeled fields. -/
def isComplete (e : Entry) : Bool := e.hasAccount && e.hasText && e.hasLink

/-- The citation the script extracts from a complete entry. -/
def citOf (e : Entry) : Citation :=
  ⟨pyStrip e.account, pyStrip e.text, ("https://").toList ++ e.linkTail⟩

/-- No digit immediately followed by a dot (keeps a field from containing a
spurious `N.` entry start). -/
def noDigitDot : List Char → Bool
  | [] => true
  | [_] => true
  | a :: b :: t => (!(a.isDigit && b == '.')) && noDigitDot (b :: t)

/-- Side conditions on an account or tweet-text field: non-empty, free of
newlines, hashes and asterisks, no digit-dot pair, and not starting with
whitespace. -/
def goodField (f : List Char) : Prop :=
  f ≠ [] ∧ (∀ c ∈ f, c ≠ '\n' ∧ c ≠ '#' ∧ c ≠ '*') ∧ noDigitDot f = true ∧
    (∀ c, f.head? = some c → pyIsSpace c = false)

/-- Side conditions on the part of a link after `https://`. -/
def goodLink (l : List Char) : Prop :=
  l ≠ [] ∧ (∀ c ∈ l, pyIsSpace c = false ∧ c ≠ '#' ∧ c ≠ '*') ∧ noDigitDot l = true

/-- Side conditions on an entry number: a non-empty digit string. -/
def goodNum (n : List Char) : Prop :=
  n ≠ [] ∧ ∀ c ∈ n, c.isDigit = true

/-- Well-formedness of an entry's present fields (at least one field is
present, so every rendered entry ends in a newline). -/
def goodEntry (e : Entry) : Prop :=
  goodNum e.num ∧ (e.hasAccount = true → goodField e.account) ∧
    (e.hasText = true → goodField e.text) ∧ (e.hasLink = true → goodLink e.linkTail) ∧
    (e.hasAccount || e.hasText || e.hasLink) = true

/-- The data of one perspective section. -/
structure PerspData where
  scoreTok : List Char
  rationale : List Char
  entries : List Entry

/-- Free text that cannot collide with headings or labels. -/
def goodBody (s : List Char) : Prop := ∀ c ∈ s, c ≠ '#' ∧ c ≠ '*'

/-- Well-formedness of a perspective section's data. -/
def goodPersp (pd : PerspData) : Prop :=
  pd.scoreTok ≠ [] ∧ (∀ c ∈ pd.scoreTok, scoreClass c = true) ∧
    (pyFloat? pd.scoreTok).isSome = true ∧ goodBody pd.rationale ∧
    ∀ e ∈ pd.entries, goodEntry e

/-- All entries of a perspective are complete. -/
def completePersp (pd : PerspData) : Prop :=
  ∀ e ∈ pd.entries, isComplete e = true

/-- The concatenated rendering of a tweet list. -/
def entriesRender (es : List Entry) : List Char :=
  (es.map renderEntry).flatten

/-- Everything of a perspective section after its heading. -/
def perspTail (pd : PerspData) : List Char :=
  '\n' :: scoreLabel ++ ' ' :: pd.scoreTok ++ '\n' :: pd.rationale ++
    '\n' :: exampleTweetsMarker ++ '\n' :: entriesRender pd.entries

/-- One perspective section. -/
def perspSec (name : List Char) (pd : PerspData) : List Char :=
  headingOf name ++ perspTail pd

/-- The non-biased review section. -/
def nbSec (s : List Char) : List Char :=
  nbHeading ++ '\n' :: s ++ ['\n']

/-- A perspective section, or nothing when the perspective is absent. -/
def optSec (name : List Char) : Option PerspData → List Char
  | none => []
  | some pd => perspSec name pd

/-- The full response: the non-biased review followed by the present
perspective sections and a final newline. -/
def buildResponse (s : List Char) (pL pC pR : Option PerspData) : List Char :=
  nbSec s ++ (optSec leftName pL ++ (optSec centerName pC ++ (optSec rightName pR ++ ['\n'])))

/-- Goodness of an optional perspective. -/
def goodOpt : Option PerspData → Prop
  | none => True
  | some pd => goodPersp pd

/-- The perspective view the extractor produces for each optional section. -/
def viewOf (p : Option PerspData) : PerspectiveView :=
  match p with
  | none => ⟨zeroDec, [], []⟩
  | some pd =>
    ⟨(pyFloat? pd.scoreTok).getD zeroDec, pyStrip pd.rationale,
      (pd.entries.filter isComplete).map citOf⟩

/-! ## Evaluating the patterns on built sections -/

theorem atDollar_false_two {t : List Char} (h : 2 ≤ t.length) : atDollar t = false := by
  match t with
  | [] => simp at h
  | [c] => simp at h
  | a :: b :: r => rfl

theorem head_mem_append {u t : List Char} (hne : u ≠ []) :
    ∀ c, (u ++ t).head? = some c → c ∈ u := by
  cases u with
  | nil => exact absurd rfl hne
  | cons a as =>
    intro c hc
    simp only [List.cons_append, List.head?_cons, Option.some.injEq] at hc
    simp [← hc]

theorem ne_of_all_list {l : List Char} {d : Char} (h : l.all (fun c => !(c == d)) = true) :
    ∀ c ∈ l, c ≠ d := by
  intro c hc
  have := List.all_eq_true.mp h c hc
  simpa using this

theorem hashEndLook_none {f : List Char → α} {g t : List Char}
    (h1 : litPre hashesLit t = false) (h2 : atDollar t = false) :
    hashEndLook f g t = none := by
  simp [hashEndLook, h1, h2]

theorem hashEndLook_none_within {f : List Char → α} {u rest : List Char}
    (hu : SafeFor hashesLit u) (hrest : rest ≠ []) :
    ∀ i < u.length, ∀ g, hashEndLook f g (u.drop i ++ rest) = none := by
  intro i hi g
  refine hashEndLook_none (hu i hi rest) (atDollar_false_two ?_)
  have h1 : u.drop i ≠ [] := by
    intro he
    have := List.drop_eq_nil_iff.mp he
    omega
  have h2 : 1 ≤ (u.drop i).length := by
    cases hd : u.drop i with
    | nil => exact absurd hd h1
    | cons x xs => simp
  have h3 : 1 ≤ rest.length := by
    cases hr : rest with
    | nil => exact absurd hr hrest
    | cons x xs => simp
  rw [List.length_append]
  omega

theorem hashEndLook_end {f : List Char → α} {g rest : List Char}
    (hrest : litPre hashesLit rest = true ∨ rest = ['\n']) :
    hashEndLook f g rest = some (f g) := by
  rcases hrest with h | rfl
  · simp [hashEndLook, h]
  · simp [hashEndLook, atDollar]

theorem tweetsLook_none_within {tok u rest : List Char}
    (hu : SafeFor exampleTweetsLook u) :
    ∀ i < u.length, ∀ g, tweetsLook tok g (u.drop i ++ rest) = none := by
  intro i hi g
  simp [tweetsLook, hu i hi rest]

theorem tweetsLook_end {tok g rest : List Char}
    (hrest : litPre exampleTweetsLook rest = true) :
    tweetsLook tok g rest = some (tok, g) := by
  simp [tweetsLook, hrest]

/-- `\s*\n` when the newline is directly followed by a non-whitespace
character: the greedy run consumes the newline, the inner continuation fails,
and backtracking leaves the newline for the literal. -/
theorem wsStarNl_eval {k : List Char → Option α} {t : List Char} {a : α}
    (hc : ∀ c, t.head? = some c → pyIsSpace c = false)
    (hk : k t = some a) :
    starK pyIsSpace (charK '\n' k) ('\n' :: t) = some a := by
  have hnl : pyIsSpace '\n' = true := by decide
  cases t with
  | nil => simp [starK, charK, hnl, hk]
  | cons b bs =>
    have hbw : pyIsSpace b = false := hc b rfl
    have hbne : b ≠ '\n' := ne_of_ws_ne hbw (by decide)
    have hin : starK pyIsSpace (charK '\n' k) (b :: bs) = none := by
      simp [starK, hbw, charK, hbne]
    show (match starK pyIsSpace (charK '\n' k) (b :: bs) with
      | some v => some v
      | none => charK '\n' k ('\n' :: b :: bs)) = some a
    rw [hin, charK_eval]
    exact hk

/-- The summary pattern on the built non-biased section. -/
theorem stepSummary_eval {s rest : List Char}
    (hs : ∀ c ∈ s, c ≠ '#')
    (hrest : litPre hashesLit rest = true ∨ rest = ['\n']) :
    stepSummary (nbSec s ++ rest) = some (s ++ ['\n']) := by
  have hrestne : rest ≠ [] := by
    rcases hrest with h | rfl
    · intro he
      subst he
      simp [litPre, hashesLit] at h
    · simp
  have hsafe : SafeFor hashesLit (s ++ ['\n']) := by
    refine safe_of_no_head (by rfl) ?_
    intro c hcm
    rcases List.mem_append.mp hcm with h | h
    · exact hs c h
    · simp only [List.mem_singleton] at h
      subst h
      decide
  unfold stepSummary nbSec
  simp only [List.append_assoc, List.cons_append, List.nil_append]
  rw [litK_eval]
  refine starK_eval (w := []) (by simp) (fun c hcc => ?_) ?_
  · simp only [List.head?_cons, Option.some.injEq] at hcc
    subst hcc
    decide
  · rw [charK_eval]
    rw [show s ++ ('\n' :: rest) = (s ++ ['\n']) ++ rest by simp]
    refine lazyGroupAux_eval [] (fun i hi => hashEndLook_none_within hsafe hrestne i hi _) ?_
    simpa using hashEndLook_end hrest

theorem head_append_of_head {u t : List Char} {h0 : Char} (hu : u.head? = some h0) :
    (u ++ t).head? = some h0 := by
  cases u with
  | nil => simp at hu
  | cons a as => simpa using hu

theorem ws_false_of_head_eq {u t : List Char} {h0 : Char} (hu : u.head? = some h0)
    (hw : pyIsSpace h0 = false) : ∀ c, (u ++ t).head? = some c → pyIsSpace c = false := by
  intro c hc
  rw [head_append_of_head hu] at hc
  cases hc
  exact hw

theorem litK_none_of_litPre_false {lit : List Char} {k : List Char → Option α} {t : List Char}
    (h : litPre lit t = false) : litK lit k t = none := by
  simp [litK, h]

/-- The score pattern on a built perspective section (anything may follow). -/
theorem stepScore_eval {name : List Char} {pd : PerspData} {rest : List Char}
    (htok : pd.scoreTok ≠ []) (htokc : ∀ c ∈ pd.scoreTok, scoreClass c = true)
    (hrat : ∀ c ∈ pd.rationale, c ≠ '*') :
    stepScore name (perspSec name pd ++ rest) =
      some (pd.scoreTok, pd.rationale ++ ['\n']) := by
  unfold stepScore perspSec perspTail
  simp only [List.append_assoc, List.cons_append, List.nil_append]
  rw [litK_eval]
  refine wsStarNl_eval (ws_false_of_head_eq (u := scoreLabel) rfl (by decide)) ?_
  rw [litK_eval]
  refine starK_eval (w := [' ']) (by decide) ?_ ?_
  · exact fun c hcc => scoreClass_not_ws (htokc c (head_mem_append htok c hcc))
  · refine groupPlusK_eval htok htokc (fun c hcc => ?_) ?_
    · simp only [List.head?_cons, Option.some.injEq] at hcc
      subst hcc
      decide
    · refine lazyDotK_eval_here ?_
      rw [charK_eval]
      rw [show pd.rationale ++ ('\n' :: (exampleTweetsMarker ++
          ('\n' :: (entriesRender pd.entries ++ rest)))) =
        (pd.rationale ++ ['\n']) ++ (exampleTweetsMarker ++
          ('\n' :: (entriesRender pd.entries ++ rest))) by simp]
      have hsafe : SafeFor exampleTweetsLook (pd.rationale ++ ['\n']) := by
        refine safe_of_no_head (by rfl) ?_
        intro c hcm
        rcases List.mem_append.mp hcm with h | h
        · exact hrat c h
        · simp only [List.mem_singleton] at h
          subst h
          decide
      refine lazyGroupAux_eval [] (fun i hi => tweetsLook_none_within hsafe i hi _) ?_
      have hpre : litPre exampleTweetsLook (exampleTweetsMarker ++
          ('\n' :: (entriesRender pd.entries ++ rest))) = true := by
        refine (litPre_iff _ _).mpr ⟨((":**").toList) ++
          ('\n' :: (entriesRender pd.entries ++ rest)), rfl⟩
      simpa using tweetsLook_end hpre

/-- The tweet-section pattern on a built perspective section. -/
theorem stepTweetSec_eval {name : List Char} {pd : PerspData} {rest : List Char}
    (htokc : ∀ c ∈ pd.scoreTok, scoreClass c = true)
    (hrat : ∀ c ∈ pd.rationale, c ≠ '*')
    (hent : ∀ c ∈ entriesRender pd.entries, c ≠ '#')
    (hrest : litPre hashesLit rest = true ∨ rest = ['\n']) :
    stepTweetSec name (perspSec name pd ++ rest) =
      some ('\n' :: entriesRender pd.entries) := by
  have hrestne : rest ≠ [] := by
    rcases hrest with h | rfl
    · intro he
      subst he
      simp [litPre, hashesLit] at h
    · simp
  unfold stepTweetSec perspSec perspTail
  simp only [List.append_assoc, List.cons_append, List.nil_append]
  rw [litK_eval]
  rw [show '\n' :: (scoreLabel ++ (' ' :: (pd.scoreTok ++ ('\n' :: (pd.rationale ++
      ('\n' :: (exampleTweetsMarker ++ ('\n' :: (entriesRender pd.entries ++ rest))))))))) =
    (['\n'] ++ ((scoreLabel ++ [' ']) ++ (pd.scoreTok ++ (['\n'] ++ (pd.rationale ++ ['\n']))))) ++
      (exampleTweetsMarker ++ ('\n' :: (entriesRender pd.entries ++ rest))) by simp]
  have hsafeM : SafeFor exampleTweetsMarker
      (['\n'] ++ ((scoreLabel ++ [' ']) ++ (pd.scoreTok ++ (['\n'] ++ (pd.rationale ++ ['\n']))))) := by
    refine safe_append (safe_of_no_head (by rfl) ?_) (safe_append (safe_of_blockSafe (by decide))
      (safe_append (safe_of_no_head (by rfl) ?_) (safe_append (safe_of_no_head (by rfl) ?_)
        (safe_append (safe_of_no_head (by rfl) ?_) (safe_of_no_head (by rfl) ?_)))))
    · intro c hcm
      simp only [List.mem_singleton] at hcm
      subst hcm
      decide
    · exact fun c hcm => scoreClass_ne_star (htokc c hcm)
    · intro c hcm
      simp only [List.mem_singleton] at hcm
      subst hcm
      decide
    · exact hrat
    · intro c hcm
      simp only [List.mem_singleton] at hcm
      subst hcm
      decide
  refine lazyDotK_eval (fun i hi => litK_none_of_litPre_false (hsafeM i hi _)) ?_
  rw [litK_eval]
  rw [show '\n' :: (entriesRender pd.entries ++ rest) =
    ('\n' :: entriesRender pd.entries) ++ rest by simp]
  have hsafeH : SafeFor hashesLit ('\n' :: entriesRender pd.entries) := by
    rw [show '\n' :: entriesRender pd.entries = ['\n'] ++ entriesRender pd.entries by simp]
    refine safe_append (safe_of_no_head (by rfl) ?_) (safe_of_no_head (by rfl) hent)
    intro c hcm
    simp only [List.mem_singleton] at hcm
    subst hcm
    decide
  refine lazyGroupAux_eval [] (fun i hi => hashEndLook_none_within hsafeH hrestne i hi _) ?_
  simpa using hashEndLook_end hrest

theorem head_of_append_ne {u t : List Char} (hne : u ≠ []) {c : Char}
    (h : (u ++ t).head? = some c) : u.head? = some c := by
  cases u with
  | nil => exact absurd rfl hne
  | cons a as => simpa using h

theorem starK_eval_one {p : Char → Bool} {k : List Char → Option α} {c : Char}
    {t : List Char} {a : α} (hc : p c = true)
    (ht : ∀ x, t.head? = some x → p x = false) (hk : k t = some a) :
    starK p k (c :: t) = some a := by
  have hin : starK p k t = some a := by
    cases t with
    | nil => exact hk
    | cons x xs => simp [starK, ht x rfl, hk]
  simp [starK, hc, hin]

theorem plusK_eval_one {p : Char → Bool} {k : List Char → Option α} {c : Char}
    {t : List Char} {a : α} (hc : p c = true)
    (ht : ∀ x, t.head? = some x → p x = false) (hk : k t = some a) :
    plusK p k (c :: t) = some a := by
  have hin : starK p k t = some a := by
    cases t with
    | nil => exact hk
    | cons x xs => simp [starK, ht x rfl, hk]
  simp [plusK, hc, hin]

theorem notNl_of_ne {c : Char} (h : c ≠ '\n') : notNl c = true := by
  simpa [notNl] using h

/-- The tweet-entry pattern matches a complete well-formed entry, consuming
everything up to (but not including) the newline after the link. -/
theorem stepTweet_complete_eval {e : Entry} (R : List Char)
    (hg : goodEntry e) (hc : isComplete e = true) :
    stepTweet (renderEntry e ++ R) = some (citOf e, '\n' :: R) := by
  obtain ⟨⟨hnumne, hnumd⟩, hacc', htxt', hlnk', -⟩ := hg
  have hA : e.hasAccount = true := by
    unfold isComplete at hc
    simp only [Bool.and_eq_true] at hc
    exact hc.1.1
  have hT : e.hasText = true := by
    unfold isComplete at hc
    simp only [Bool.and_eq_true] at hc
    exact hc.1.2
  have hL : e.hasLink = true := by
    unfold isComplete at hc
    simp only [Bool.and_eq_true] at hc
    exact hc.2
  obtain ⟨haccne, haccc, -, hacchead⟩ := hacc' hA
  obtain ⟨htxtne, htxtc, -, htxthead⟩ := htxt' hT
  obtain ⟨hlnkne, hlnkc, -⟩ := hlnk' hL
  unfold stepTweet renderEntry citOf
  rw [hA, hT, hL]
  simp only [if_true, List.append_assoc, List.cons_append, List.nil_append]
  rw [takeWhile_append_of hnumd (fun c hcc => by
    simp only [List.head?_cons, Option.some.injEq] at hcc
    subst hcc
    decide)]
  have hie : e.num.isEmpty = false := by
    cases hn : e.num with
    | nil => exact absurd hn hnumne
    | cons a as => rfl
  rw [if_neg (by simp [hie])]
  rw [drop_len_append]
  rw [charK_eval]
  refine plusK_eval_one (by decide)
    (ws_false_of_head_eq (u := accountLabel) rfl (by decide)) ?_
  rw [litK_eval]
  refine starK_eval_one (by decide)
    (fun c hcc => hacchead c (head_of_append_ne haccne hcc)) ?_
  refine groupPlusK_eval haccne (fun c hcm => notNl_of_ne (haccc c hcm).1)
    (fun c hcc => by
      simp only [List.head?_cons, Option.some.injEq] at hcc
      subst hcc
      decide) ?_
  refine plusK_eval_one (by decide)
    (ws_false_of_head_eq (u := tweetTextLabel) rfl (by decide)) ?_
  rw [litK_eval]
  refine starK_eval_one (by decide)
    (fun c hcc => htxthead c (head_of_append_ne htxtne hcc)) ?_
  refine groupPlusK_eval htxtne (fun c hcm => notNl_of_ne (htxtc c hcm).1)
    (fun c hcc => by
      simp only [List.head?_cons, Option.some.injEq] at hcc
      subst hcc
      decide) ?_
  refine plusK_eval_one (by decide)
    (ws_false_of_head_eq (u := linkLabel) rfl (by decide)) ?_
  rw [litK_eval]
  refine starK_eval_one (by decide)
    (ws_false_of_head_eq (u := ("https://").toList) rfl (by decide)) ?_
  unfold schemeK
  rw [if_pos (litPre_append (("https://").toList) _)]
  have hdrop : ∀ X : List Char, ((("https://").toList) ++ X).drop 8 = X := fun X => rfl
  rw [hdrop]
  refine groupPlusK_eval hlnkne (fun c hcm => by simp [notWs, (hlnkc c hcm).1])
    (fun c hcc => by
      simp only [List.head?_cons, Option.some.injEq] at hcc
      subst hcc
      decide) ?_
  have hstrip : pyStrip ((("https://").toList) ++ e.linkTail) =
      (("https://").toList) ++ e.linkTail := by
    refine pyStrip_eq_self ?_
    intro c hcm
    rcases List.mem_append.mp hcm with h | h
    · exact no_ws_of_all (by decide) c h
    · exact (hlnkc c h).1
  rw [hstrip]

theorem stepTweet_none_nonDigit {c : Char} (cs : List Char) (h : c.isDigit = false) :
    stepTweet (c :: cs) = none := by
  unfold stepTweet
  rw [if_pos]
  simp [List.takeWhile_cons, h]

theorem renderEntry_len_ge {e : Entry} (hne : e.num ≠ []) : 2 ≤ (renderEntry e).length := by
  unfold renderEntry
  cases hn : e.num with
  | nil => exact absurd hn hne
  | cons a as =>
    simp
    omega

/-- `finditer` on a newline followed by the renderings of complete
well-formed entries extracts exactly their citations, in order. -/
theorem finditer_complete {es : List Entry}
    (hg : ∀ e ∈ es, goodEntry e ∧ isComplete e = true) :
    ∀ fuel, (entriesRender es).length + 1 ≤ fuel →
      finditerAux fuel ('\n' :: entriesRender es) = es.map citOf := by
  induction es with
  | nil =>
    intro fuel hf
    match fuel, hf with
    | f + 1, _ =>
      show finditerAux (f + 1) ('\n' :: entriesRender []) = []
      have he : entriesRender [] = [] := rfl
      rw [he]
      simp only [finditerAux, stepTweet_none_nonDigit (c := '\n') [] (by decide)]
      cases f <;> rfl
  | cons e es ih =>
    intro fuel hf
    obtain ⟨⟨⟨hnumne, hnumd⟩, -, -, -, -⟩, -⟩ := hg e (by simp)
    have hlen : 2 ≤ (renderEntry e).length := renderEntry_len_ge hnumne
    have hrender : entriesRender (e :: es) = renderEntry e ++ entriesRender es := by
      simp [entriesRender]
    rw [hrender, List.length_append] at hf
    match fuel, hf with
    | f + 1, hf =>
      rw [hrender]
      have hstep0 : stepTweet ('\n' :: (renderEntry e ++ entriesRender es)) = none :=
        stepTweet_none_nonDigit (c := '\n') _ (by decide)
      simp only [finditerAux, hstep0]
      obtain ⟨d, nrest, hnum⟩ : ∃ d nr, e.num = d :: nr := by
        cases hn : e.num with
        | nil => exact absurd hn hnumne
        | cons a as => exact ⟨a, as, rfl⟩
      have hmatch : stepTweet (renderEntry e ++ entriesRender es) =
          some (citOf e, '\n' :: entriesRender es) :=
        stepTweet_complete_eval (entriesRender es) (hg e (by simp)).1 (hg e (by simp)).2
      have hcons : renderEntry e ++ entriesRender es =
          d :: ((nrest ++ '.' :: ' ' ::
            ((if e.hasAccount then accountLabel ++ ' ' :: e.account ++ ['\n'] else []) ++
             ((if e.hasText then tweetTextLabel ++ ' ' :: e.text ++ ['\n'] else []) ++
              (if e.hasLink then linkLabel ++ ' ' :: ("https://").toList ++ e.linkTail ++ ['\n']
               else [])))) ++ entriesRender es) := by
        unfold renderEntry
        rw [hnum]
        simp
      rw [hcons] at hmatch ⊢
      have hf1 : 1 ≤ f := by omega
      match f, hf1 with
      | f' + 1, _ =>
        simp only [finditerAux, hmatch]
        have hrec : finditerAux f' ('\n' :: entriesRender es) = es.map citOf := by
          refine ih (fun x hx => hg x (by simp [hx])) f' ?_
          omega
        simp only [List.map_cons, hrec]

/-! ## Failure of the tweet pattern inside malformed entries -/

/-- No digit anywhere is immediately followed by a dot, and the last character
is not a digit: from such a position a `\d+\.` head can never fire. -/
def digitsSafe : List Char → Bool
  | [] => true
  | [a] => !a.isDigit
  | a :: b :: t => (!a.isDigit || !(b == '.')) && digitsSafe (b :: t)

theorem nodigit_of_all {l : List Char} (h : l.all (fun c => !c.isDigit) = true) :
    ∀ c ∈ l, c.isDigit = false := by
  intro c hc
  have := List.all_eq_true.mp h c hc
  simpa using this

theorem digitsSafe_cons_nonDigit {c : Char} {t : List Char} (hc : c.isDigit = false)
    (ht : digitsSafe t = true) : digitsSafe (c :: t) = true := by
  cases t with
  | nil => simp [digitsSafe, hc]
  | cons b bs =>
    show ((!c.isDigit || !(b == '.')) && digitsSafe (b :: bs)) = true
    simp [hc, ht]

theorem digitsSafe_of_cons {a : Char} {bs : List Char} (h : digitsSafe (a :: bs) = true) :
    digitsSafe bs = true := by
  cases bs with
  | nil => rfl
  | cons b t =>
    have : ((!a.isDigit || !(b == '.')) && digitsSafe (b :: t)) = true := h
    exact (Bool.and_eq_true _ _ |>.mp this).2

theorem noDigitDot_cons_nonDigit {c : Char} {t : List Char} (hc : c.isDigit = false)
    (ht : noDigitDot t = true) : noDigitDot (c :: t) = true := by
  cases t with
  | nil => rfl
  | cons b bs =>
    show ((!(c.isDigit && b == '.')) && noDigitDot (b :: bs)) = true
    simp [hc, ht]

theorem noDigitDot_of_cons {c : Char} {t : List Char} (h : noDigitDot (c :: t) = true) :
    noDigitDot t = true := by
  cases t with
  | nil => rfl
  | cons b bs =>
    have : ((!(c.isDigit && b == '.')) && noDigitDot (b :: bs)) = true := h
    exact (Bool.and_eq_true _ _ |>.mp this).2

theorem noDigitDot_append_of_noDigits {u v : List Char}
    (hu : ∀ c ∈ u, c.isDigit = false) (hv : noDigitDot v = true) :
    noDigitDot (u ++ v) = true := by
  induction u with
  | nil => simpa using hv
  | cons a as ih =>
    show noDigitDot (a :: (as ++ v)) = true
    exact noDigitDot_cons_nonDigit (hu a (by simp))
      (ih (fun c hc => hu c (by simp [hc])))

theorem digitsSafe_block_prepend {W Q : List Char}
    (hW : noDigitDot W = true) (hQ : digitsSafe Q = true) :
    digitsSafe (W ++ '\n' :: Q) = true := by
  induction W with
  | nil =>
    show digitsSafe ('\n' :: Q) = true
    exact digitsSafe_cons_nonDigit (by decide) hQ
  | cons a W' ih =>
    show digitsSafe (a :: (W' ++ '\n' :: Q)) = true
    cases hW' : W' with
    | nil =>
      subst hW'
      show ((!a.isDigit || !('\n' == '.')) && digitsSafe ('\n' :: Q)) = true
      have h2 : digitsSafe ('\n' :: Q) = true :=
        digitsSafe_cons_nonDigit (c := '\n') (by decide) hQ
      simp [h2]
    | cons b W'' =>
      subst hW'
      show ((!a.isDigit || !(b == '.')) && digitsSafe (b :: (W'' ++ '\n' :: Q))) = true
      have hpair : (!a.isDigit || !(b == '.')) = true := by
        have hx : ((!(a.isDigit && b == '.')) && noDigitDot (b :: W'')) = true := hW
        have h1 := (Bool.and_eq_true _ _ |>.mp hx).1
        simp only [Bool.not_eq_true', Bool.and_eq_false_iff] at h1
        rcases h1 with h1 | h1 <;> simp [h1]
      have htail : digitsSafe (b :: (W'' ++ '\n' :: Q)) = true :=
        ih (noDigitDot_of_cons hW)
      simp [hpair, htail]

theorem stepTweet_none_digits_then {u : List Char} {c : Char} {t : List Char}
    (hu : ∀ x ∈ u, x.isDigit = true) (hcd : c.isDigit = false) (hcdot : c ≠ '.') :
    stepTweet (u ++ c :: t) = none := by
  unfold stepTweet
  rw [takeWhile_append_of hu (fun x hx => by
    simp only [List.head?_cons, Option.some.injEq] at hx
    rw [← hx]
    exact hcd)]
  cases u with
  | nil =>
    rw [if_pos (show ([] : List Char).isEmpty = true from rfl)]
  | cons a as =>
    rw [if_neg (by simp)]
    rw [drop_len_append]
    have hbe : (c == '.') = false := by
      simp [hcdot]
    simp [charK, hbe]

theorem digit_run_split {a : Char} {bs : List Char} (ha : a.isDigit = true)
    (h : digitsSafe (a :: bs) = true) :
    ∃ u c t, bs = u ++ c :: t ∧ (∀ x ∈ u, x.isDigit = true) ∧
      c.isDigit = false ∧ c ≠ '.' := by
  induction bs generalizing a with
  | nil =>
    have : (!a.isDigit) = true := h
    rw [ha] at this
    cases this
  | cons b t ih =>
    have hpair : ((!a.isDigit || !(b == '.')) && digitsSafe (b :: t)) = true := h
    obtain ⟨h1, h2⟩ := Bool.and_eq_true _ _ |>.mp hpair
    have hbdot : b ≠ '.' := by
      rcases Bool.or_eq_true _ _ |>.mp h1 with hx | hx
      · rw [Bool.not_eq_true'] at hx
        rw [ha] at hx
        cases hx
      · simp only [Bool.not_eq_true', beq_eq_false_iff_ne] at hx
        exact hx
    cases hb : b.isDigit with
    | false => exact ⟨[], b, t, rfl, by simp, hb, hbdot⟩
    | true =>
      obtain ⟨u, c, t', he, hu, hc, hcd⟩ := ih hb h2
      refine ⟨b :: u, c, t', by rw [he, List.cons_append], ?_, hc, hcd⟩
      intro x hx
      rcases List.mem_cons.mp hx with rfl | hx'
      · exact hb
      · exact hu x hx'

theorem stepTweet_none_of_digitsSafe {B : List Char} (hs : digitsSafe B = true)
    (X : List Char) : ∀ q, q < B.length → stepTweet (B.drop q ++ X) = none := by
  induction B with
  | nil =>
    intro q hq
    simp at hq
  | cons a bs ih =>
    intro q hq
    cases q with
    | zero =>
      show stepTweet ((a :: bs) ++ X) = none
      cases ha : a.isDigit with
      | false =>
        rw [List.cons_append]
        exact stepTweet_none_nonDigit _ ha
      | true =>
        obtain ⟨u, c, t, he, hu, hc, hcd⟩ := digit_run_split ha hs
        rw [he]
        have hshape : (a :: (u ++ c :: t)) ++ X = (a :: u) ++ (c :: (t ++ X)) := by
          simp
        rw [hshape]
        refine stepTweet_none_digits_then ?_ hc hcd
        intro x hx
        rcases List.mem_cons.mp hx with rfl | hx'
        · exact ha
        · exact hu x hx'
    | succ q' =>
      show stepTweet ((a :: bs).drop (q' + 1) ++ X) = none
      rw [List.drop_succ_cons]
      exact ih (digitsSafe_of_cons hs) q' (by simpa using hq)

/-- The whitespace star stalls at `R2` (head not whitespace), so only the
single continuation point `R2` is tried. -/
theorem starK_at_R2_none {lbl R2 : List Char} {C : List Char → Option α}
    (hC : litK lbl C R2 = none)
    (hR2h : ∀ c, R2.head? = some c → pyIsSpace c = false) :
    starK pyIsSpace (litK lbl C) R2 = none := by
  cases hR : R2 with
  | nil =>
    show litK lbl C [] = none
    rw [← hR]
    exact hC
  | cons r rs =>
    have hrw : pyIsSpace r = false := hR2h r (by rw [hR]; rfl)
    show starK pyIsSpace (litK lbl C) (r :: rs) = none
    simp only [starK]
    rw [if_neg (by simp [hrw])]
    rw [← hR]
    exact hC

/-- Scanning `\s+`/`\s*` points across a label-free field, the newline, and
the continuation text `R2`, a `**`-labelled literal never fires except
possibly at `R2`, where the given continuation fails. -/
theorem starK_scan_none {lbl R2 : List Char} {C : List Char → Option α}
    (hlbl : lbl.head? = some '*') (hC : litK lbl C R2 = none)
    (hR2h : ∀ c, R2.head? = some c → pyIsSpace c = false) :
    ∀ fld, (∀ c ∈ fld, c ≠ '*') →
      starK pyIsSpace (litK lbl C) (fld ++ '\n' :: R2) = none := by
  intro fld
  induction fld with
  | nil =>
    intro hf
    show starK pyIsSpace (litK lbl C) ('\n' :: R2) = none
    simp only [starK]
    rw [if_pos (by decide)]
    rw [starK_at_R2_none hC hR2h]
    show litK lbl C ('\n' :: R2) = none
    exact litK_none_of_litPre_false (litPre_false_head hlbl rfl (by decide))
  | cons a as ih =>
    intro hf
    show starK pyIsSpace (litK lbl C) (a :: (as ++ '\n' :: R2)) = none
    by_cases hpa : pyIsSpace a = true
    · simp only [starK]
      rw [if_pos hpa, ih (fun c hc => hf c (by simp [hc]))]
      show litK lbl C (a :: (as ++ '\n' :: R2)) = none
      exact litK_none_of_litPre_false (litPre_false_head hlbl rfl (hf a (by simp)))
    · simp only [starK]
      rw [if_neg hpa]
      exact litK_none_of_litPre_false (litPre_false_head hlbl rfl (hf a (by simp)))

theorem plusK_scan_none {lbl R2 : List Char} {C : List Char → Option α}
    (hlbl : lbl.head? = some '*') (hC : litK lbl C R2 = none)
    (hR2h : ∀ c, R2.head? = some c → pyIsSpace c = false) :
    ∀ fld, (∀ c ∈ fld, c ≠ '*') →
      plusK pyIsSpace (litK lbl C) (fld ++ '\n' :: R2) = none := by
  intro fld hf
  cases fld with
  | nil =>
    show plusK pyIsSpace (litK lbl C) ('\n' :: R2) = none
    simp only [plusK]
    rw [if_pos (by decide)]
    exact starK_at_R2_none hC hR2h
  | cons a as =>
    show plusK pyIsSpace (litK lbl C) (a :: (as ++ '\n' :: R2)) = none
    by_cases hpa : pyIsSpace a = true
    · simp only [plusK]
      rw [if_pos hpa]
      exact starK_scan_none hlbl hC hR2h as (fun c hc => hf c (by simp [hc]))
    · simp only [plusK]
      rw [if_neg hpa]

/-- A lazy-field group (`([^\n]+)`) over a field line fails when every split's
continuation fails. -/
theorem groupPlusAux_scan_none {k : List Char → List Char → Option α} {R2 : List Char}
    (hk : ∀ g u, (∀ c ∈ u, c ≠ '\n' ∧ c ≠ '*') → k g (u ++ '\n' :: R2) = none) :
    ∀ fld acc, (∀ c ∈ fld, c ≠ '\n' ∧ c ≠ '*') →
      groupPlusAux notNl k acc (fld ++ '\n' :: R2) = none := by
  intro fld
  induction fld with
  | nil =>
    intro acc hf
    show groupPlusAux notNl k acc ('\n' :: R2) = none
    simp only [groupPlusAux]
    rw [if_neg (by decide)]
  | cons a as ih =>
    intro acc hf
    show groupPlusAux notNl k acc (a :: (as ++ '\n' :: R2)) = none
    simp only [groupPlusAux]
    rw [if_pos (by simp [notNl, (hf a (by simp)).1])]
    rw [ih (acc ++ [a]) (fun c hc => hf c (by simp [hc]))]
    exact hk (acc ++ [a]) as (fun c hc => hf c (by simp [hc]))

/-- The `\s*` before a field group followed by the group itself fails when
every group split's continuation fails; the field must contain a
non-whitespace character so the whitespace scan cannot cross its newline. -/
theorem starK_group_scan_none {k : List Char → List Char → Option α} {R2 : List Char}
    (hk : ∀ g u, (∀ c ∈ u, c ≠ '\n' ∧ c ≠ '*') → k g (u ++ '\n' :: R2) = none) :
    ∀ fld, (∀ c ∈ fld, c ≠ '\n' ∧ c ≠ '*') → (∃ c ∈ fld, pyIsSpace c = false) →
      starK pyIsSpace (groupPlusK notNl k) (fld ++ '\n' :: R2) = none := by
  intro fld
  induction fld with
  | nil =>
    intro hf hw
    simp at hw
  | cons a as ih =>
    intro hf hw
    show starK pyIsSpace (groupPlusK notNl k) (a :: (as ++ '\n' :: R2)) = none
    have hgrp : ∀ t, (∀ c ∈ t, c ≠ '\n' ∧ c ≠ '*') →
        groupPlusK notNl k (t ++ '\n' :: R2) = none := fun t ht =>
      groupPlusAux_scan_none hk t [] ht
    by_cases hpa : pyIsSpace a = true
    · have hw' : ∃ c ∈ as, pyIsSpace c = false := by
        obtain ⟨c, hc, hcw⟩ := hw
        rcases List.mem_cons.mp hc with rfl | hc'
        · rw [hpa] at hcw
          cases hcw
        · exact ⟨c, hc', hcw⟩
      simp only [starK]
      rw [if_pos hpa, ih (fun c hc => hf c (by simp [hc])) hw']
      show groupPlusK notNl k (a :: (as ++ '\n' :: R2)) = none
      exact hgrp (a :: as) hf
    · simp only [starK]
      rw [if_neg hpa]
      exact hgrp (a :: as) hf

/-- A `\s+` that consumes one space and stalls at non-whitespace. -/
theorem plusK_one_ws {k : List Char → Option α} {c0 : Char} {Z : List Char}
    (hZ : Z.head? = some c0) (h0 : pyIsSpace c0 = false) :
    plusK pyIsSpace k (' ' :: Z) = k Z := by
  cases Z with
  | nil => simp at hZ
  | cons z zs =>
    simp only [List.head?_cons, Option.some.injEq] at hZ
    show plusK pyIsSpace k (' ' :: z :: zs) = k (z :: zs)
    simp only [plusK]
    rw [if_pos (by decide)]
    simp only [starK]
    rw [if_neg (by rw [hZ]; simp [h0])]

/-- The labeled-field blocks of a rendered entry (everything after `N. `). -/
def entryBlocks (e : Entry) : List Char :=
  (if e.hasAccount then accountLabel ++ ' ' :: e.account ++ ['\n'] else []) ++
   ((if e.hasText then tweetTextLabel ++ ' ' :: e.text ++ ['\n'] else []) ++
    (if e.hasLink then linkLabel ++ ' ' :: ("https://").toList ++ e.linkTail ++ ['\n']
     else []))

theorem renderEntry_eq (e : Entry) : renderEntry e = e.num ++ '.' :: ' ' :: entryBlocks e :=
  rfl

/-- What follows a rendered entry inside a tweet span: the next entry's
number, or nothing. -/
def startsDigitOrNil (X : List Char) : Prop :=
  X = [] ∨ ∃ d t, X = d :: t ∧ d.isDigit = true

theorem litPre_starlbl_X_false {lbl X : List Char} (hlbl : lbl.head? = some '*')
    (hX : startsDigitOrNil X) : litPre lbl X = false := by
  rcases hX with rfl | ⟨d, t, rfl, hd⟩
  · cases lbl with
    | nil => simp at hlbl
    | cons a as => rfl
  · refine litPre_false_head hlbl rfl ?_
    intro he
    subst he
    exact absurd hd (by decide)

theorem X_head_not_ws {X : List Char} (hX : startsDigitOrNil X) :
    ∀ c, X.head? = some c → pyIsSpace c = false := by
  rcases hX with rfl | ⟨d, t, rfl, hd⟩
  · intro c hc
    simp at hc
  · intro c hc
    simp only [List.head?_cons, Option.some.injEq] at hc
    rw [← hc]
    exact isDigit_not_ws hd

theorem digitsSafe_opt_block {b : Bool} {W Q : List Char}
    (hW : b = true → noDigitDot W = true) (hQ : digitsSafe Q = true) :
    digitsSafe ((if b then W ++ ['\n'] else []) ++ Q) = true := by
  cases b with
  | false => simpa using hQ
  | true =>
    rw [if_pos rfl, List.append_assoc]
    exact digitsSafe_block_prepend (hW rfl) hQ

theorem digitsSafe_opt_last {b : Bool} {W : List Char}
    (hW : b = true → noDigitDot W = true) :
    digitsSafe (if b then W ++ ['\n'] else []) = true := by
  cases b with
  | false => rfl
  | true =>
    rw [if_pos rfl]
    exact digitsSafe_block_prepend (hW rfl) rfl

theorem digitsSafe_entryBlocks {e : Entry} (hg : goodEntry e) :
    digitsSafe ('.' :: ' ' :: entryBlocks e) = true := by
  obtain ⟨-, hacc', htxt', hlnk', -⟩ := hg
  refine digitsSafe_cons_nonDigit (by decide) (digitsSafe_cons_nonDigit (by decide) ?_)
  unfold entryBlocks
  refine digitsSafe_opt_block
    (fun hA => noDigitDot_append_of_noDigits (nodigit_of_all (by decide))
      (noDigitDot_cons_nonDigit (by decide) (hacc' hA).2.2.1)) ?_
  refine digitsSafe_opt_block
    (fun hT => noDigitDot_append_of_noDigits (nodigit_of_all (by decide))
      (noDigitDot_cons_nonDigit (by decide) (htxt' hT).2.2.1)) ?_
  exact digitsSafe_opt_last
    (fun hLk => noDigitDot_append_of_noDigits (nodigit_of_all (by decide))
      (hlnk' hLk).2.2)

/-- From anywhere inside the entry number of a malformed (incomplete) good
entry, the tweet pattern fails: the digits and dot match but the labeled
fields cannot all be found before the next entry. -/
theorem stepTweet_none_numtail {e : Entry} {X nd : List Char}
    (hg : goodEntry e) (hic : isComplete e = false) (hX : startsDigitOrNil X)
    (hnd : nd ≠ []) (hdig : ∀ c ∈ nd, c.isDigit = true) :
    stepTweet (nd ++ '.' :: ' ' :: (entryBlocks e ++ X)) = none := by
  obtain ⟨-, hacc', htxt', hlnk', hone⟩ := hg
  have hXh : ∀ c, X.head? = some c → pyIsSpace c = false := X_head_not_ws hX
  have haccF : e.hasAccount = true → ∀ c ∈ ' ' :: e.account, c ≠ '\n' ∧ c ≠ '*' := by
    intro hA c hc
    rcases List.mem_cons.mp hc with rfl | hc'
    · exact ⟨by decide, by decide⟩
    · exact ⟨((hacc' hA).2.1 c hc').1, ((hacc' hA).2.1 c hc').2.2⟩
  have haccW : e.hasAccount = true → ∃ c ∈ ' ' :: e.account, pyIsSpace c = false := by
    intro hA
    cases hacc0 : e.account with
    | nil => exact absurd hacc0 (hacc' hA).1
    | cons c0 cs =>
      refine ⟨c0, by simp [hacc0], ?_⟩
      refine (hacc' hA).2.2.2 c0 ?_
      rw [hacc0]
      rfl
  have htxtF : e.hasText = true → ∀ c ∈ ' ' :: e.text, c ≠ '\n' ∧ c ≠ '*' := by
    intro hT c hc
    rcases List.mem_cons.mp hc with rfl | hc'
    · exact ⟨by decide, by decide⟩
    · exact ⟨((htxt' hT).2.1 c hc').1, ((htxt' hT).2.1 c hc').2.2⟩
  have htxtW : e.hasText = true → ∃ c ∈ ' ' :: e.text, pyIsSpace c = false := by
    intro hT
    cases htxt0 : e.text with
    | nil => exact absurd htxt0 (htxt' hT).1
    | cons c0 cs =>
      refine ⟨c0, by simp [htxt0], ?_⟩
      refine (htxt' hT).2.2.2 c0 ?_
      rw [htxt0]
      rfl
  unfold stepTweet
  rw [takeWhile_append_of hdig (fun c hc => by
    simp only [List.head?_cons, Option.some.injEq] at hc
    rw [← hc]
    decide)]
  cases nd with
  | nil => exact absurd rfl hnd
  | cons a as =>
    rw [if_neg (by simp)]
    rw [drop_len_append]
    rw [charK_eval]
    unfold entryBlocks
    cases hA : e.hasAccount <;> cases hT : e.hasText <;> cases hL2 : e.hasLink
    · -- no field at all: contradicts goodEntry
      rw [hA, hT, hL2] at hone
      simp at hone
    · -- only link
      rw [if_neg Bool.false_ne_true, if_neg Bool.false_ne_true, if_pos rfl]
      simp only [List.nil_append, List.append_nil, List.cons_append, List.append_assoc]
      rw [plusK_one_ws (head_append_of_head (u := linkLabel) rfl) (by decide)]
      exact litK_none_of_litPre_false
        (litPre_false_of_mism (show mism accountLabel linkLabel = true by decide) _)
    · -- only text
      rw [if_neg Bool.false_ne_true, if_pos rfl, if_neg Bool.false_ne_true]
      simp only [List.nil_append, List.append_nil, List.cons_append, List.append_assoc]
      rw [plusK_one_ws (head_append_of_head (u := tweetTextLabel) rfl) (by decide)]
      exact litK_none_of_litPre_false
        (litPre_false_of_mism (show mism accountLabel tweetTextLabel = true by decide) _)
    · -- text and link, no account
      rw [if_neg Bool.false_ne_true, if_pos rfl, if_pos rfl]
      simp only [List.nil_append, List.append_nil, List.cons_append, List.append_assoc]
      rw [plusK_one_ws (head_append_of_head (u := tweetTextLabel) rfl) (by decide)]
      exact litK_none_of_litPre_false
        (litPre_false_of_mism (show mism accountLabel tweetTextLabel = true by decide) _)
    · -- only account
      rw [if_pos rfl, if_neg Bool.false_ne_true, if_neg Bool.false_ne_true]
      simp only [List.nil_append, List.append_nil, List.cons_append, List.append_assoc]
      rw [plusK_one_ws (head_append_of_head (u := accountLabel) rfl) (by decide)]
      rw [litK_eval]
      exact starK_group_scan_none
        (fun g u hu => plusK_scan_none (show tweetTextLabel.head? = some '*' from rfl)
          (litK_none_of_litPre_false
            (litPre_starlbl_X_false (show tweetTextLabel.head? = some '*' from rfl) hX))
          hXh u (fun c hc => (hu c hc).2))
        (' ' :: e.account) (haccF hA) (haccW hA)
    · -- account and link, no text
      rw [if_pos rfl, if_neg Bool.false_ne_true, if_pos rfl]
      simp only [List.nil_append, List.append_nil, List.cons_append, List.append_assoc]
      rw [plusK_one_ws (head_append_of_head (u := accountLabel) rfl) (by decide)]
      rw [litK_eval]
      exact starK_group_scan_none
        (fun g u hu => plusK_scan_none (show tweetTextLabel.head? = some '*' from rfl)
          (litK_none_of_litPre_false
            (litPre_false_of_mism (show mism tweetTextLabel linkLabel = true by decide) _))
          (ws_false_of_head_eq (u := linkLabel) rfl (by decide)) u
          (fun c hc => (hu c hc).2))
        (' ' :: e.account) (haccF hA) (haccW hA)
    · -- account and text, no link
      rw [if_pos rfl, if_pos rfl, if_neg Bool.false_ne_true]
      simp only [List.nil_append, List.append_nil, List.cons_append, List.append_assoc]
      rw [plusK_one_ws (head_append_of_head (u := accountLabel) rfl) (by decide)]
      rw [litK_eval]
      exact starK_group_scan_none
        (fun g u hu => plusK_scan_none (show tweetTextLabel.head? = some '*' from rfl)
          (by
            rw [litK_eval]
            exact starK_group_scan_none
              (fun g2 u2 hu2 => plusK_scan_none (show linkLabel.head? = some '*' from rfl)
                (litK_none_of_litPre_false
                  (litPre_starlbl_X_false (show linkLabel.head? = some '*' from rfl) hX))
                hXh u2 (fun c hc => (hu2 c hc).2))
              (' ' :: e.text) (htxtF hT) (htxtW hT))
          (ws_false_of_head_eq (u := tweetTextLabel) rfl (by decide)) u
          (fun c hc => (hu c hc).2))
        (' ' :: e.account) (haccF hA) (haccW hA)
    · -- all three: contradicts incompleteness
      unfold isComplete at hic
      rw [hA, hT, hL2] at hic
      simp at hic

theorem stepTweet_none_incomplete_pos {e : Entry} {X : List Char}
    (hg : goodEntry e) (hic : isComplete e = false) (hX : startsDigitOrNil X) :
    ∀ p, p < (renderEntry e).length → stepTweet ((renderEntry e).drop p ++ X) = none := by
  intro p hp
  rw [renderEntry_eq] at hp ⊢
  by_cases hpn : p < e.num.length
  · rw [List.drop_append_of_le_length (Nat.le_of_lt hpn)]
    rw [List.append_assoc]
    refine stepTweet_none_numtail hg hic hX ?_ ?_
    · intro hnil
      rw [List.drop_eq_nil_iff] at hnil
      omega
    · intro c hc
      exact hg.1.2 c (List.mem_of_mem_drop hc)
  · have hqle : e.num.length ≤ p := Nat.le_of_not_lt hpn
    obtain ⟨q, rfl⟩ : ∃ q, p = e.num.length + q := ⟨p - e.num.length, by omega⟩
    rw [List.drop_append]
    refine stepTweet_none_of_digitsSafe (digitsSafe_entryBlocks hg) X q ?_
    rw [List.length_append] at hp
    simp only [List.length_cons] at hp ⊢
    omega

/-- Skipping a block in which no match can start. -/
theorem finditerAux_skip {B R : List Char}
    (h : ∀ p, p < B.length → stepTweet (B.drop p ++ R) = none) :
    ∀ fuel, finditerAux (B.length + fuel) (B ++ R) = finditerAux fuel R := by
  induction B with
  | nil => intro fuel; simp
  | cons c cs ih =>
    intro fuel
    have h0 : stepTweet (c :: (cs ++ R)) = none := by
      have := h 0 (by simp)
      simpa using this
    show finditerAux (cs.length + 1 + fuel) (c :: (cs ++ R)) = finditerAux fuel R
    have harith : cs.length + 1 + fuel = (cs.length + fuel) + 1 := by omega
    rw [harith]
    simp only [finditerAux, h0]
    exact ih (fun p hp => by
      have := h (p + 1) (by simp; omega)
      simpa using this) fuel

theorem entriesRender_startsDigitOrNil {es : List Entry}
    (hg : ∀ e ∈ es, goodEntry e) : startsDigitOrNil (entriesRender es) := by
  cases es with
  | nil => exact Or.inl rfl
  | cons e es' =>
    right
    obtain ⟨⟨hne, hdig⟩, -, -, -, -⟩ := hg e (by simp)
    cases hn : e.num with
    | nil => exact absurd hn hne
    | cons d nr =>
      have hshape : entriesRender (e :: es') =
          d :: ((nr ++ '.' :: ' ' :: entryBlocks e) ++ entriesRender es') := by
        show renderEntry e ++ entriesRender es' = _
        rw [renderEntry_eq, hn]
        simp
      exact ⟨d, _, hshape, hdig d (by simp [hn])⟩

/-- `finditer` over a span of good entries, complete or not, extracts exactly
the complete entries' citations, in order. -/
theorem finditer_mixed_aux {es : List Entry} (hg : ∀ e ∈ es, goodEntry e) :
    ∀ fuel, (entriesRender es).length ≤ fuel →
      finditerAux fuel (entriesRender es) = (es.filter isComplete).map citOf := by
  induction es with
  | nil =>
    intro fuel hf
    show finditerAux fuel [] = []
    cases fuel <;> rfl
  | cons e es' ih =>
    intro fuel hf
    have hge := hg e (by simp)
    have hgood' : ∀ x ∈ es', goodEntry x := fun x hx => hg x (by simp [hx])
    have hrender : entriesRender (e :: es') = renderEntry e ++ entriesRender es' := by
      simp [entriesRender]
    rw [hrender] at hf ⊢
    rw [List.length_append] at hf
    cases hic : isComplete e with
    | false =>
      obtain ⟨g, rfl⟩ : ∃ g, fuel = (renderEntry e).length + g :=
        ⟨fuel - (renderEntry e).length, by omega⟩
      rw [finditerAux_skip (stepTweet_none_incomplete_pos hge hic
        (entriesRender_startsDigitOrNil hgood'))]
      rw [List.filter_cons_of_neg (by simp [hic])]
      exact ih hgood' g (by omega)
    | true =>
      obtain ⟨hnum, -, -, -, -⟩ := hg e (by simp)
      obtain ⟨d, nr, hn⟩ : ∃ d nr, e.num = d :: nr := by
        cases hn : e.num with
        | nil => exact absurd hn hnum.1
        | cons a as => exact ⟨a, as, rfl⟩
      have hlen2 : 2 ≤ (renderEntry e).length := renderEntry_len_ge hnum.1
      have hmatch : stepTweet (renderEntry e ++ entriesRender es') =
          some (citOf e, '\n' :: entriesRender es') :=
        stepTweet_complete_eval _ hge hic
      have hcons : renderEntry e ++ entriesRender es' =
          d :: ((nr ++ '.' :: ' ' :: entryBlocks e) ++ entriesRender es') := by
        rw [renderEntry_eq, hn]
        simp
      match fuel, (show (entriesRender es').length + 2 ≤ fuel by omega) with
      | f + 1, hf2 =>
        rw [hcons] at hmatch ⊢
        simp only [finditerAux, hmatch]
        match f, (show (entriesRender es').length + 1 ≤ f by omega) with
        | f' + 1, hf3 =>
          have hstep : stepTweet ('\n' :: entriesRender es') = none :=
            stepTweet_none_nonDigit _ (by decide)
          simp only [finditerAux, hstep]
          rw [ih hgood' f' (by omega)]
          rw [List.filter_cons_of_pos (by simp [hic])]
          simp

theorem finditer_mixed {es : List Entry} (hg : ∀ e ∈ es, goodEntry e) :
    ∀ fuel, (entriesRender es).length + 1 ≤ fuel →
      finditerAux fuel ('\n' :: entriesRender es) = (es.filter isComplete).map citOf := by
  intro fuel hf
  match fuel, hf with
  | f + 1, hf =>
    have hstep : stepTweet ('\n' :: entriesRender es) = none :=
      stepTweet_none_nonDigit _ (by decide)
    simp only [finditerAux, hstep]
    exact finditer_mixed_aux hg f (by omega)

theorem mem_if_true {b : Bool} {X : List Char} {c : Char} (h : c ∈ (if b = true then X else [])) :
    b = true ∧ c ∈ X := by
  cases b
  · simp at h
  · exact ⟨rfl, by simpa using h⟩

theorem renderEntry_no_hash {e : Entry} (hg : goodEntry e) : ∀ c ∈ renderEntry e, c ≠ '#' := by
  obtain ⟨⟨-, hnumd⟩, hacc', htxt', hlnk', -⟩ := hg
  intro c hc
  unfold renderEntry at hc
  simp only [List.mem_append, List.mem_cons] at hc
  rcases hc with hc | rfl | rfl | hc | hc | hc
  · exact ne_of_digit_ne (hnumd c hc) (by decide)
  · decide
  · decide
  · obtain ⟨hA, hc⟩ := mem_if_true hc
    obtain ⟨-, haccc, -, -⟩ := hacc' hA
    simp only [List.mem_append, List.mem_cons, List.mem_singleton, List.mem_nil_iff,
      or_false] at hc
    rcases hc with (hc | rfl | hc) | rfl
    · exact ne_of_all_list (l := accountLabel) (by decide) c hc
    · decide
    · exact (haccc c hc).2.1
    · decide
  · obtain ⟨hT, hc⟩ := mem_if_true hc
    obtain ⟨-, htxtc, -, -⟩ := htxt' hT
    simp only [List.mem_append, List.mem_cons, List.mem_singleton, List.mem_nil_iff,
      or_false] at hc
    rcases hc with (hc | rfl | hc) | rfl
    · exact ne_of_all_list (l := tweetTextLabel) (by decide) c hc
    · decide
    · exact (htxtc c hc).2.1
    · decide
  · obtain ⟨hLk, hc⟩ := mem_if_true hc
    obtain ⟨-, hlnkc, -⟩ := hlnk' hLk
    simp only [List.mem_append, List.mem_cons, List.mem_singleton, List.mem_nil_iff,
      or_false] at hc
    rcases hc with ((hc | rfl | hc) | hc) | rfl
    · exact ne_of_all_list (l := linkLabel) (by decide) c hc
    · decide
    · exact ne_of_all_list (l := ("https://").toList) (by decide) c hc
    · exact (hlnkc c hc).2.1
    · decide

theorem entriesRender_no_hash {es : List Entry} (hg : ∀ e ∈ es, goodEntry e) :
    ∀ c ∈ entriesRender es, c ≠ '#' := by
  intro c hc
  unfold entriesRender at hc
  simp only [List.mem_flatten, List.mem_map] at hc
  obtain ⟨l, ⟨e, he, rfl⟩, hcl⟩ := hc
  exact renderEntry_no_hash (hg e he) c hcl

theorem perspTail_no_hash {pd : PerspData} (hpd : goodPersp pd) :
    ∀ c ∈ perspTail pd, c ≠ '#' := by
  obtain ⟨-, htokc, -, hrat, hent⟩ := hpd
  intro c hc
  unfold perspTail at hc
  simp only [List.mem_append, List.mem_cons, List.mem_singleton] at hc
  rcases hc with ((((rfl | hc) | rfl | hc) | rfl | hc) | rfl | hc) | rfl | hc
  · decide
  · exact ne_of_all_list (l := scoreLabel) (by decide) c hc
  · decide
  · exact scoreClass_ne_hash (htokc c hc)
  · decide
  · exact (hrat c hc).1
  · decide
  · exact ne_of_all_list (l := exampleTweetsMarker) (by decide) c hc
  · decide
  · exact entriesRender_no_hash hent c hc

theorem safe_perspSec {lit name : List Char} {pd : PerspData}
    (hhead : lit.head? = some '#') (hb : blockSafe lit (headingOf name) = true)
    (hpd : goodPersp pd) : SafeFor lit (perspSec name pd) := by
  unfold perspSec
  exact safe_append (safe_of_blockSafe hb) (safe_of_no_head hhead (perspTail_no_hash hpd))

theorem safe_nbSec {lit s : List Char}
    (hhead : lit.head? = some '#') (hb : blockSafe lit nbHeading = true)
    (hs : ∀ c ∈ s, c ≠ '#') : SafeFor lit (nbSec s) := by
  unfold nbSec
  refine safe_append (safe_append (safe_of_blockSafe hb) (safe_of_no_head hhead ?_))
    (safe_of_no_head hhead ?_)
  · intro c hcm
    rcases List.mem_cons.mp hcm with rfl | h
    · decide
    · exact hs c h
  · intro c hcm
    simp only [List.mem_singleton] at hcm
    subst hcm
    decide

theorem safe_optSec {lit other : List Char} {pX : Option PerspData}
    (hhead : lit.head? = some '#') (hb : blockSafe lit (headingOf other) = true)
    (hX : goodOpt pX) : SafeFor lit (optSec other pX) := by
  cases pX with
  | none => exact safe_nil
  | some pd => exact safe_perspSec hhead hb hX

theorem safe_nl {lit : List Char} (hhead : lit.head? = some '#') :
    SafeFor lit ['\n'] := by
  refine safe_of_no_head hhead ?_
  intro c hcm
  simp only [List.mem_singleton] at hcm
  subst hcm
  decide

theorem headingOf_head (name : List Char) : (headingOf name).head? = some '#' := rfl

theorem headingOf_ne_nil (name : List Char) : headingOf name ≠ [] := by
  unfold headingOf
  simp

theorem litPre_nil_elim {lit : List Char} (h : litPre lit [] = true) : lit = [] := by
  cases lit with
  | nil => rfl
  | cons a as => simp [litPre] at h

theorem reSearch_none_of_safe {step : List Char → Option α} {lit u : List Char}
    (hstep : ∀ t a, step t = some a → litPre lit t = true)
    (hu : SafeFor lit u) (hlitne : lit ≠ []) : reSearch step u = none := by
  cases e : reSearch step u with
  | none => rfl
  | some a =>
    obtain ⟨w, t, rfl, hs⟩ := reSearch_inv e
    have hp := hstep t a hs
    cases t with
    | nil => exact absurd (litPre_nil_elim (by simpa using hp)) hlitne
    | cons c cs =>
      have hw : w.length < (w ++ c :: cs).length := by simp
      have hdrop : (w ++ c :: cs).drop w.length = c :: cs := by
        rw [List.drop_append_of_le_length (by simp), List.drop_length, List.nil_append]
      have := hu w.length hw []
      rw [hdrop, List.append_nil] at this
      rw [hp] at this
      cases this

theorem hashes_pre_heading (name Y : List Char) :
    litPre hashesLit (headingOf name ++ Y) = true :=
  (litPre_iff _ _).mpr ⟨' ' :: (name ++ Y), rfl⟩

/-- The score search over a text whose only occurrence of the heading is the
(optional) section between a safe prefix and a safe suffix. -/
theorem reSearch_score_at {name pre post : List Char} {pX : Option PerspData}
    (hpre : SafeFor (headingOf name) pre) (hX : goodOpt pX)
    (hpost : SafeFor (headingOf name) post) :
    reSearch (stepScore name) (pre ++ (optSec name pX ++ post)) =
      (match pX with
       | none => none
       | some pd => some (pd.scoreTok, pd.rationale ++ ['\n'])) := by
  cases pX with
  | none =>
    simp only [optSec, List.nil_append]
    exact reSearch_none_of_safe (fun t a h => stepScore_litPre h)
      (safe_append hpre hpost) (headingOf_ne_nil name)
  | some pd =>
    rw [reSearch_skip (fun t a h => stepScore_litPre h) _ hpre]
    exact reSearch_pos (stepScore_eval hX.1 hX.2.1 (fun c hcm => (hX.2.2.2.1 c hcm).2))

/-- The tweet-section search over the same layout; the suffix must moreover
start with a heading or be the final newline. -/
theorem reSearch_tweetSec_at {name pre post : List Char} {pX : Option PerspData}
    (hpre : SafeFor (headingOf name) pre) (hX : goodOpt pX)
    (hpost : SafeFor (headingOf name) post)
    (hshape : litPre hashesLit post = true ∨ post = ['\n']) :
    reSearch (stepTweetSec name) (pre ++ (optSec name pX ++ post)) =
      (match pX with
       | none => none
       | some pd => some ('\n' :: entriesRender pd.entries)) := by
  cases pX with
  | none =>
    simp only [optSec, List.nil_append]
    exact reSearch_none_of_safe (fun t a h => stepTweetSec_litPre h)
      (safe_append hpre hpost) (headingOf_ne_nil name)
  | some pd =>
    rw [reSearch_skip (fun t a h => stepTweetSec_litPre h) _ hpre]
    refine reSearch_pos (stepTweetSec_eval hX.2.1 (fun c hcm => (hX.2.2.2.1 c hcm).2) ?_ hshape)
    exact entriesRender_no_hash hX.2.2.2.2

theorem litPre_hashes_optSome (name : List Char) (pd : PerspData) (Y : List Char) :
    litPre hashesLit (optSec name (some pd) ++ Y) = true := by
  show litPre hashesLit (perspSec name pd ++ Y) = true
  unfold perspSec
  rw [List.append_assoc]
  exact hashes_pre_heading name _

theorem postShape1 (n : List Char) (p : Option PerspData) :
    litPre hashesLit (optSec n p ++ ['\n']) = true ∨ optSec n p ++ ['\n'] = ['\n'] := by
  cases p with
  | none => right; rfl
  | some pd => left; exact litPre_hashes_optSome n pd _

theorem postShape2 (n1 n2 : List Char) (p1 p2 : Option PerspData) :
    litPre hashesLit (optSec n1 p1 ++ (optSec n2 p2 ++ ['\n'])) = true ∨
      optSec n1 p1 ++ (optSec n2 p2 ++ ['\n']) = ['\n'] := by
  cases p1 with
  | none =>
    rcases postShape1 n2 p2 with h | h
    · left; simpa [optSec] using h
    · right; simpa [optSec] using h
  | some pd => left; exact litPre_hashes_optSome n1 pd _

theorem postShape3 (n1 n2 n3 : List Char) (p1 p2 p3 : Option PerspData) :
    litPre hashesLit (optSec n1 p1 ++ (optSec n2 p2 ++ (optSec n3 p3 ++ ['\n']))) = true ∨
      optSec n1 p1 ++ (optSec n2 p2 ++ (optSec n3 p3 ++ ['\n'])) = ['\n'] := by
  cases p1 with
  | none =>
    rcases postShape2 n2 n3 p2 p3 with h | h
    · left; simpa [optSec] using h
    · right; simpa [optSec] using h
  | some pd => left; exact litPre_hashes_optSome n1 pd _

/-- The score field computed over a layout `pre ++ optional section ++ post`
in which the section's heading starts nowhere else. -/
theorem scorePart_at {name pre post : List Char} {pX : Option PerspData}
    (hpre : SafeFor (headingOf name) pre) (hX : goodOpt pX)
    (hpost : SafeFor (headingOf name) post) :
    scorePart name (pre ++ (optSec name pX ++ post)) =
      Except.ok ((viewOf pX).sentiment, (viewOf pX).summary) := by
  cases pX with
  | none =>
    unfold scorePart
    rw [show pre ++ (optSec name none ++ post) = pre ++ post from by simp [optSec]]
    rw [reSearch_none_of_safe (fun t a h => stepScore_litPre h) (safe_append hpre hpost)
      (headingOf_ne_nil name)]
    rfl
  | some pd =>
    unfold scorePart
    simp only [optSec]
    rw [reSearch_skip (fun t a h => stepScore_litPre h) _ hpre,
      reSearch_pos (stepScore_eval hX.1 hX.2.1 (fun c hcm => (hX.2.2.2.1 c hcm).2))]
    obtain ⟨q, hq⟩ := Option.isSome_iff_exists.mp hX.2.2.1
    show (match pyFloat? pd.scoreTok with
      | some q => Except.ok (q, pyStrip (pd.rationale ++ ['\n']))
      | none => Except.error (floatError pd.scoreTok)) = _
    rw [hq]
    show Except.ok (q, pyStrip (pd.rationale ++ ['\n'])) = _
    rw [pyStrip_append_newline]
    simp only [viewOf, hq, Option.getD_some]

/-- The tweet list computed over the same layout. -/
theorem tweets_at {name pre post : List Char} {pX : Option PerspData}
    (hpre : SafeFor (headingOf name) pre) (hX : goodOpt pX)
    (hpost : SafeFor (headingOf name) post)
    (hshape : litPre hashesLit post = true ∨ post = ['\n']) :
    extract_tweets name (pre ++ (optSec name pX ++ post)) = (viewOf pX).tweets := by
  cases pX with
  | none =>
    unfold extract_tweets
    rw [show pre ++ (optSec name none ++ post) = pre ++ post from by simp [optSec]]
    rw [reSearch_none_of_safe (fun t a h => stepTweetSec_litPre h) (safe_append hpre hpost)
      (headingOf_ne_nil name)]
    rfl
  | some pd =>
    unfold extract_tweets
    simp only [optSec]
    rw [reSearch_skip (fun t a h => stepTweetSec_litPre h) _ hpre,
      reSearch_pos (stepTweetSec_eval hX.2.1 (fun c hcm => (hX.2.2.2.1 c hcm).2)
        (entriesRender_no_hash hX.2.2.2.2) hshape)]
    show finditerAux ('\n' :: entriesRender pd.entries).length ('\n' :: entriesRender pd.entries)
        = (viewOf (some pd)).tweets
    rw [finditer_mixed hX.2.2.2.2 _ (by simp)]
    simp only [viewOf]

/-- The summary field of a built response. -/
theorem summaryPart_build {s : List Char} {pL pC pR : Option PerspData}
    (hs : goodBody s) :
    summaryPart (buildResponse s pL pC pR) = pyStrip s := by
  unfold summaryPart buildResponse
  rw [reSearch_pos (stepSummary_eval (fun c hc => (hs c hc).1)
    (postShape3 leftName centerName rightName pL pC pR))]
  show pyStrip (s ++ ['\n']) = pyStrip s
  exact pyStrip_append_newline s

theorem scorePart_build_left {s : List Char} {pL pC pR : Option PerspData}
    (hs : goodBody s) (hL : goodOpt pL) (hC : goodOpt pC) (hR : goodOpt pR) :
    scorePart leftName (buildResponse s pL pC pR) =
      Except.ok ((viewOf pL).sentiment, (viewOf pL).summary) := by
  unfold buildResponse
  exact scorePart_at (safe_nbSec (headingOf_head _) (by decide) (fun c hc => (hs c hc).1)) hL
    (safe_append (safe_optSec (headingOf_head _) (by decide) hC)
      (safe_append (safe_optSec (headingOf_head _) (by decide) hR) (safe_nl (headingOf_head _))))

theorem scorePart_build_center {s : List Char} {pL pC pR : Option PerspData}
    (hs : goodBody s) (hL : goodOpt pL) (hC : goodOpt pC) (hR : goodOpt pR) :
    scorePart centerName (buildResponse s pL pC pR) =
      Except.ok ((viewOf pC).sentiment, (viewOf pC).summary) := by
  rw [show buildResponse s pL pC pR =
      (nbSec s ++ optSec leftName pL) ++
        (optSec centerName pC ++ (optSec rightName pR ++ ['\n'])) from by
    simp [buildResponse, List.append_assoc]]
  exact scorePart_at
    (safe_append (safe_nbSec (headingOf_head _) (by decide) (fun c hc => (hs c hc).1))
      (safe_optSec (headingOf_head _) (by decide) hL)) hC
    (safe_append (safe_optSec (headingOf_head _) (by decide) hR) (safe_nl (headingOf_head _)))

theorem scorePart_build_right {s : List Char} {pL pC pR : Option PerspData}
    (hs : goodBody s) (hL : goodOpt pL) (hC : goodOpt pC) (hR : goodOpt pR) :
    scorePart rightName (buildResponse s pL pC pR) =
      Except.ok ((viewOf pR).sentiment, (viewOf pR).summary) := by
  rw [show buildResponse s pL pC pR =
      ((nbSec s ++ optSec leftName pL) ++ optSec centerName pC) ++
        (optSec rightName pR ++ ['\n']) from by
    simp [buildResponse, List.append_assoc]]
  exact scorePart_at
    (safe_append
      (safe_append (safe_nbSec (headingOf_head _) (by decide) (fun c hc => (hs c hc).1))
        (safe_optSec (headingOf_head _) (by decide) hL))
      (safe_optSec (headingOf_head _) (by decide) hC)) hR
    (safe_nl (headingOf_head _))

theorem tweets_build_left {s : List Char} {pL pC pR : Option PerspData}
    (hs : goodBody s) (hL : goodOpt pL) (hC : goodOpt pC) (hR : goodOpt pR) :
    extract_tweets leftName (buildResponse s pL pC pR) = (viewOf pL).tweets := by
  unfold buildResponse
  exact tweets_at (safe_nbSec (headingOf_head _) (by decide) (fun c hc => (hs c hc).1)) hL
    (safe_append (safe_optSec (headingOf_head _) (by decide) hC)
      (safe_append (safe_optSec (headingOf_head _) (by decide) hR) (safe_nl (headingOf_head _))))
    (postShape2 centerName rightName pC pR)

theorem tweets_build_center {s : List Char} {pL pC pR : Option PerspData}
    (hs : goodBody s) (hL : goodOpt pL) (hC : goodOpt pC) (hR : goodOpt pR) :
    extract_tweets centerName (buildResponse s pL pC pR) = (viewOf pC).tweets := by
  rw [show buildResponse s pL pC pR =
      (nbSec s ++ optSec leftName pL) ++
        (optSec centerName pC ++ (optSec rightName pR ++ ['\n'])) from by
    simp [buildResponse, List.append_assoc]]
  exact tweets_at
    (safe_append (safe_nbSec (headingOf_head _) (by decide) (fun c hc => (hs c hc).1))
      (safe_optSec (headingOf_head _) (by decide) hL)) hC
    (safe_append (safe_optSec (headingOf_head _) (by decide) hR) (safe_nl (headingOf_head _)))
    (postShape1 rightName pR)

theorem tweets_build_right {s : List Char} {pL pC pR : Option PerspData}
    (hs : goodBody s) (hL : goodOpt pL) (hC : goodOpt pC) (hR : goodOpt pR) :
    extract_tweets rightName (buildResponse s pL pC pR) = (viewOf pR).tweets := by
  rw [show buildResponse s pL pC pR =
      ((nbSec s ++ optSec leftName pL) ++ optSec centerName pC) ++
        (optSec rightName pR ++ ['\n']) from by
    simp [buildResponse, List.append_assoc]]
  exact tweets_at
    (safe_append
      (safe_append (safe_nbSec (headingOf_head _) (by decide) (fun c hc => (hs c hc).1))
        (safe_optSec (headingOf_head _) (by decide) hL))
      (safe_optSec (headingOf_head _) (by decide) hC)) hR
    (safe_nl (headingOf_head _)) (Or.inr rfl)

/-- Master lemma: the extractor on a built response recovers exactly the
data the response was built from. -/
theorem analyze_build {s : List Char} {pL pC pR : Option PerspData}
    (hs : goodBody s) (hL : goodOpt pL) (hC : goodOpt pC) (hR : goodOpt pR) :
    analyze_extract (buildResponse s pL pC pR) =
      Except.ok ⟨pyStrip s, viewOf pL, viewOf pC, viewOf pR⟩ := by
  unfold analyze_extract
  rw [scorePart_build_left hs hL hC hR, scorePart_build_center hs hL hC hR,
    scorePart_build_right hs hL hC hR, summaryPart_build hs,
    tweets_build_left hs hL hC hR, tweets_build_center hs hL hC hR,
    tweets_build_right hs hL hC hR]

/-! ## Decidable checkers for the builder side conditions -/

def goodFieldB (f : List Char) : Bool :=
  !f.isEmpty && f.all (fun c => !(c == '\n') && !(c == '#') && !(c == '*')) &&
    noDigitDot f && (f.take 1).all (fun c => !pyIsSpace c)

def goodLinkB (l : List Char) : Bool :=
  !l.isEmpty && l.all (fun c => !pyIsSpace c && !(c == '#') && !(c == '*')) && noDigitDot l

def goodNumB (n : List Char) : Bool := !n.isEmpty && n.all Char.isDigit

def goodEntryB (e : Entry) : Bool :=
  goodNumB e.num && (!e.hasAccount || goodFieldB e.account) &&
    (!e.hasText || goodFieldB e.text) && (!e.hasLink || goodLinkB e.linkTail) &&
    (e.hasAccount || e.hasText || e.hasLink)

def goodBodyB (s : List Char) : Bool := s.all (fun c => !(c == '#') && !(c == '*'))

def goodPerspB (pd : PerspData) : Bool :=
  !pd.scoreTok.isEmpty && pd.scoreTok.all scoreClass && (pyFloat? pd.scoreTok).isSome &&
    goodBodyB pd.rationale && pd.entries.all goodEntryB

def goodOptB : Option PerspData → Bool
  | none => true
  | some pd => goodPerspB pd

theorem ne_nil_of_not_isEmpty {l : List Char} (h : (!l.isEmpty) = true) : l ≠ [] := by
  intro hnil
  subst hnil
  simp at h

theorem goodField_of_b {f : List Char} (h : goodFieldB f = true) : goodField f := by
  unfold goodFieldB at h
  simp only [Bool.and_eq_true] at h
  obtain ⟨⟨⟨h1, h2⟩, h3⟩, h4⟩ := h
  refine ⟨ne_nil_of_not_isEmpty h1, ?_, h3, ?_⟩
  · intro c hc
    have hx := List.all_eq_true.mp h2 c hc
    simp only [Bool.and_eq_true, Bool.not_eq_true', beq_eq_false_iff_ne] at hx
    exact ⟨hx.1.1, hx.1.2, hx.2⟩
  · intro c hc
    cases f with
    | nil => simp at hc
    | cons a as =>
      simp only [List.head?_cons, Option.some.injEq] at hc
      rw [← hc]
      have hx := List.all_eq_true.mp h4 a (by simp)
      simpa using hx

theorem goodLink_of_b {l : List Char} (h : goodLinkB l = true) : goodLink l := by
  unfold goodLinkB at h
  simp only [Bool.and_eq_true] at h
  obtain ⟨⟨h1, h2⟩, h3⟩ := h
  refine ⟨ne_nil_of_not_isEmpty h1, ?_, h3⟩
  intro c hc
  have hx := List.all_eq_true.mp h2 c hc
  simp only [Bool.and_eq_true, Bool.not_eq_true', beq_eq_false_iff_ne] at hx
  exact ⟨hx.1.1, hx.1.2, hx.2⟩

theorem goodNum_of_b {n : List Char} (h : goodNumB n = true) : goodNum n := by
  unfold goodNumB at h
  simp only [Bool.and_eq_true] at h
  exact ⟨ne_nil_of_not_isEmpty h.1, List.all_eq_true.mp h.2⟩

theorem goodEntry_of_b {e : Entry} (h : goodEntryB e = true) : goodEntry e := by
  unfold goodEntryB at h
  simp only [Bool.and_eq_true] at h
  obtain ⟨⟨⟨⟨h1, h2⟩, h3⟩, h4⟩, h5⟩ := h
  refine ⟨goodNum_of_b h1, ?_, ?_, ?_, h5⟩
  · intro hA
    rcases Bool.or_eq_true _ _ |>.mp h2 with hx | hx
    · rw [hA] at hx
      cases hx
    · exact goodField_of_b hx
  · intro hT
    rcases Bool.or_eq_true _ _ |>.mp h3 with hx | hx
    · rw [hT] at hx
      cases hx
    · exact goodField_of_b hx
  · intro hLk
    rcases Bool.or_eq_true _ _ |>.mp h4 with hx | hx
    · rw [hLk] at hx
      cases hx
    · exact goodLink_of_b hx

theorem goodBody_of_b {s : List Char} (h : goodBodyB s = true) : goodBody s := by
  intro c hc
  have hx := List.all_eq_true.mp h c hc
  simp only [Bool.and_eq_true, Bool.not_eq_true', beq_eq_false_iff_ne] at hx
  exact hx

theorem goodPersp_of_b {pd : PerspData} (h : goodPerspB pd = true) : goodPersp pd := by
  unfold goodPerspB at h
  simp only [Bool.and_eq_true] at h
  obtain ⟨⟨⟨⟨h1, h2⟩, h3⟩, h4⟩, h5⟩ := h
  exact ⟨ne_nil_of_not_isEmpty h1, List.all_eq_true.mp h2, h3, goodBody_of_b h4,
    fun e he => goodEntry_of_b (List.all_eq_true.mp h5 e he)⟩

theorem goodOpt_of_b {p : Option PerspData} (h : goodOptB p = true) : goodOpt p := by
  cases p with
  | none => trivial
  | some pd => exact goodPersp_of_b h

/-! ## Non-emptiness of stripped text -/

theorem exists_mem_dropWhile {p : Char → Bool} {s : List Char}
    (h : ∃ c ∈ s, p c = false) : ∃ c ∈ s.dropWhile p, p c = false := by
  induction s with
  | nil => simp at h
  | cons a as ih =>
    rw [List.dropWhile_cons]
    by_cases hp : p a = true
    · simp only [hp, if_true]
      apply ih
      obtain ⟨c, hc, hcp⟩ := h
      rcases List.mem_cons.mp hc with rfl | hc'
      · rw [hp] at hcp
        cases hcp
      · exact ⟨c, hc', hcp⟩
    · have hp' : p a = false := by simpa using hp
      simp only [hp', Bool.false_eq_true, if_false]
      exact ⟨a, List.mem_cons_self a as, hp'⟩

theorem pyStrip_ne_nil {s : List Char} (h : ∃ c ∈ s, pyIsSpace c = false) :
    pyStrip s ≠ [] := by
  unfold pyStrip
  intro he
  rw [List.reverse_eq_nil_iff] at he
  have h1 := exists_mem_dropWhile h
  have h2 : ∃ c ∈ (s.dropWhile pyIsSpace).reverse, pyIsSpace c = false := by
    obtain ⟨c, hc, hcp⟩ := h1
    exact ⟨c, List.mem_reverse.mpr hc, hcp⟩
  obtain ⟨c, hc, hcp⟩ := exists_mem_dropWhile h2
  rw [he] at hc
  simp at hc

theorem viewOf_sentiment_ne {pd : PerspData} (hX : goodOpt (some pd))
    (hq : pyFloat? pd.scoreTok ≠ some zeroDec) :
    (viewOf (some pd)).sentiment ≠ zeroDec := by
  obtain ⟨q, hqe⟩ := Option.isSome_iff_exists.mp hX.2.2.1
  simp only [viewOf, hqe, Option.getD_some]
  intro he
  subst he
  exact hq hqe

theorem viewOf_summary_ne {pd : PerspData}
    (hw : ∃ c ∈ pd.rationale, pyIsSpace c = false) :
    (viewOf (some pd)).summary ≠ [] := by
  simp only [viewOf]
  exact pyStrip_ne_nil hw

theorem viewOf_tweets_ne {pd : PerspData}
    (he : ∃ e ∈ pd.entries, isComplete e = true) : (viewOf (some pd)).tweets ≠ [] := by
  obtain ⟨e, hm, hc⟩ := he
  have hmem : citOf e ∈ (viewOf (some pd)).tweets := by
    simp only [viewOf]
    exact List.mem_map_of_mem citOf (List.mem_filter.mpr ⟨hm, hc⟩)
  exact List.ne_nil_of_mem hmem

/-! ## Concrete well-formed witness data -/

def wfEntry : Entry :=
  ⟨("1").toList, ("user1").toList, ("Interesting vote today").toList,
    ("x.com/user1/status/1").toList, true, true, true⟩

def wfPdL : PerspData :=
  ⟨("-0.4").toList, ("Left leaning accounts are critical of the law.").toList, [wfEntry]⟩

def wfPdC : PerspData :=
  ⟨("0.1").toList, ("Centrist accounts are mixed on the change.").toList, [wfEntry]⟩

def wfPdR : PerspData :=
  ⟨("0.6").toList, ("Right leaning accounts welcome the decision.").toList, [wfEntry]⟩

def wfSummary : List Char :=
  ("The council approved the zoning law this week.").toList

/-- **C3.** In a response in which exactly one perspective section is absent
while the non-biased section and the other two perspective sections are
well-formed, only the missing perspective's fields stay at their defaults:
the report on the truncated response carries the default view in the missing
slot and exactly the same extracted summary and perspective views as the
report on the full response. -/
theorem c3_missing_section_independence {s : List Char} {pdL pdC pdR : PerspData}
    (hs : goodBody s) (hL : goodOpt (some pdL)) (hC : goodOpt (some pdC))
    (hR : goodOpt (some pdR)) :
    analyze_extract (buildResponse s none (some pdC) (some pdR)) =
        Except.ok ⟨pyStrip s, ⟨zeroDec, [], []⟩, viewOf (some pdC), viewOf (some pdR)⟩ ∧
      analyze_extract (buildResponse s (some pdL) none (some pdR)) =
        Except.ok ⟨pyStrip s, viewOf (some pdL), ⟨zeroDec, [], []⟩, viewOf (some pdR)⟩ ∧
      analyze_extract (buildResponse s (some pdL) (some pdC) none) =
        Except.ok ⟨pyStrip s, viewOf (some pdL), viewOf (some pdC), ⟨zeroDec, [], []⟩⟩ ∧
      analyze_extract (buildResponse s (some pdL) (some pdC) (some pdR)) =
        Except.ok ⟨pyStrip s, viewOf (some pdL), viewOf (some pdC), viewOf (some pdR)⟩ :=
  ⟨analyze_build hs (goodOpt_of_b rfl) hC hR, analyze_build hs hL (goodOpt_of_b rfl) hR,
    analyze_build hs hL hC (goodOpt_of_b rfl), analyze_build hs hL hC hR⟩

/-- Witness for C3 at a concrete well-formed response. -/
theorem c3_theorem_witness :
    analyze_extract (buildResponse wfSummary none (some wfPdC) (some wfPdR)) =
        Except.ok ⟨pyStrip wfSummary, ⟨zeroDec, [], []⟩, viewOf (some wfPdC),
          viewOf (some wfPdR)⟩ ∧
      analyze_extract (buildResponse wfSummary (some wfPdL) none (some wfPdR)) =
        Except.ok ⟨pyStrip wfSummary, viewOf (some wfPdL), ⟨zeroDec, [], []⟩,
          viewOf (some wfPdR)⟩ ∧
      analyze_extract (buildResponse wfSummary (some wfPdL) (some wfPdC) none) =
        Except.ok ⟨pyStrip wfSummary, viewOf (some wfPdL), viewOf (some wfPdC),
          ⟨zeroDec, [], []⟩⟩ ∧
      analyze_extract (buildResponse wfSummary (some wfPdL) (some wfPdC) (some wfPdR)) =
        Except.ok ⟨pyStrip wfSummary, viewOf (some wfPdL), viewOf (some wfPdC),
          viewOf (some wfPdR)⟩ :=
  c3_missing_section_independence (goodBody_of_b (by decide)) (goodOpt_of_b (by decide))
    (goodOpt_of_b (by decide)) (goodOpt_of_b (by decide))

/-- **C5.** On a fully well-formed response — non-biased section with a body
holding a non-whitespace character, and for each perspective a heading, a
nonzero numeric score token, a rationale with a non-whitespace character and
at least one complete citation entry — the extractor returns a report in
which no field still holds its default value. -/
theorem c5_wellformed_no_defaults {s : List Char} {pdL pdC pdR : PerspData}
    (hs : goodBody s) (hsw : ∃ c ∈ s, pyIsSpace c = false)
    (hL : goodOpt (some pdL)) (hC : goodOpt (some pdC)) (hR : goodOpt (some pdR))
    (hLq : pyFloat? pdL.scoreTok ≠ some zeroDec)
    (hCq : pyFloat? pdC.scoreTok ≠ some zeroDec)
    (hRq : pyFloat? pdR.scoreTok ≠ some zeroDec)
    (hLw : ∃ c ∈ pdL.rationale, pyIsSpace c = false)
    (hCw : ∃ c ∈ pdC.rationale, pyIsSpace c = false)
    (hRw : ∃ c ∈ pdR.rationale, pyIsSpace c = false)
    (hLe : ∃ e ∈ pdL.entries, isComplete e = true)
    (hCe : ∃ e ∈ pdC.entries, isComplete e = true)
    (hRe : ∃ e ∈ pdR.entries, isComplete e = true) :
    ∃ rep : SentimentReport,
      analyze_extract (buildResponse s (some pdL) (some pdC) (some pdR)) =
          Except.ok rep ∧
        rep.nonBiasedSummary ≠ [] ∧
        rep.left.sentiment ≠ zeroDec ∧ rep.left.summary ≠ [] ∧ rep.left.tweets ≠ [] ∧
        rep.center.sentiment ≠ zeroDec ∧ rep.center.summary ≠ [] ∧
        rep.center.tweets ≠ [] ∧
        rep.right.sentiment ≠ zeroDec ∧ rep.right.summary ≠ [] ∧ rep.right.tweets ≠ [] :=
  ⟨⟨pyStrip s, viewOf (some pdL), viewOf (some pdC), viewOf (some pdR)⟩,
    analyze_build hs hL hC hR, pyStrip_ne_nil hsw,
    viewOf_sentiment_ne hL hLq, viewOf_summary_ne hLw, viewOf_tweets_ne hLe,
    viewOf_sentiment_ne hC hCq, viewOf_summary_ne hCw, viewOf_tweets_ne hCe,
    viewOf_sentiment_ne hR hRq, viewOf_summary_ne hRw, viewOf_tweets_ne hRe⟩

/-- Witness for C5 at the same concrete well-formed response. -/
theorem c5_theorem_witness :
    ∃ rep : SentimentReport,
      analyze_extract (buildResponse wfSummary (some wfPdL) (some wfPdC) (some wfPdR)) =
          Except.ok rep ∧
        rep.nonBiasedSummary ≠ [] ∧
        rep.left.sentiment ≠ zeroDec ∧ rep.left.summary ≠ [] ∧ rep.left.tweets ≠ [] ∧
        rep.center.sentiment ≠ zeroDec ∧ rep.center.summary ≠ [] ∧
        rep.center.tweets ≠ [] ∧
        rep.right.sentiment ≠ zeroDec ∧ rep.right.summary ≠ [] ∧ rep.right.tweets ≠ [] :=
  c5_wellformed_no_defaults (goodBody_of_b (by decide)) (by decide)
    (goodOpt_of_b (by decide)) (goodOpt_of_b (by decide)) (goodOpt_of_b (by decide))
    (by decide) (by decide) (by decide) (by decide) (by decide) (by decide)
    (by decide) (by decide) (by decide)

theorem pyStrip_goodField_ne {f : List Char} (hf : goodField f) : pyStrip f ≠ [] := by
  obtain ⟨hne, -, -, hhead⟩ := hf
  cases h0 : f with
  | nil => exact absurd h0 hne
  | cons c cs =>
    refine pyStrip_ne_nil ⟨c, ?_, hhead c (by rw [h0]; rfl)⟩
    exact List.mem_cons_self c cs

/-- An incomplete entry in a perspective's tweet list. -/
def badEntry : Entry :=
  ⟨("2").toList, ("user2").toList, ("Spicy take").toList, [], true, true, false⟩

def c4Pd : PerspData :=
  ⟨("0.1").toList, ("Centrists are mixed on the change.").toList,
    [wfEntry, badEntry, wfEntry]⟩

/-- **C4.** Citation extraction is per-entry: a numbered entry that omits one
of the three labeled fields contributes no citation, the well-formed entries
before and after it are still captured, and every emitted citation comes from
a complete entry and has non-empty account, text and url fields. -/
theorem c4_per_entry_independence {s : List Char} {pdL pdC pdR : PerspData}
    {pre post : List Entry} {bad : Entry}
    (hs : goodBody s) (hL : goodOpt (some pdL)) (hC : goodOpt (some pdC))
    (hR : goodOpt (some pdR))
    (hsplit : pdC.entries = pre ++ bad :: post)
    (hbad : isComplete bad = false) :
    extract_tweets centerName (buildResponse s (some pdL) (some pdC) (some pdR)) =
        (pre.filter isComplete).map citOf ++ (post.filter isComplete).map citOf ∧
      ∀ cit ∈ extract_tweets centerName
          (buildResponse s (some pdL) (some pdC) (some pdR)),
        (∃ e ∈ pdC.entries, isComplete e = true ∧ cit = citOf e) ∧
          cit.account ≠ [] ∧ cit.text ≠ [] ∧ cit.url ≠ [] := by
  have hmain := tweets_build_center hs hL hC hR
  constructor
  · rw [hmain]
    simp only [viewOf]
    rw [hsplit, List.filter_append, List.filter_cons_of_neg (by simp [hbad]),
      List.map_append]
  · intro cit hcit
    rw [hmain] at hcit
    simp only [viewOf] at hcit
    obtain ⟨e, hef, rfl⟩ := List.mem_map.mp hcit
    have hmem := List.mem_filter.mp hef
    have hge : goodEntry e := hC.2.2.2.2 e hmem.1
    have hAT : e.hasAccount = true ∧ e.hasText = true := by
      have hx := hmem.2
      unfold isComplete at hx
      simp only [Bool.and_eq_true] at hx
      exact ⟨hx.1.1, hx.1.2⟩
    refine ⟨⟨e, hmem.1, hmem.2, rfl⟩, ?_, ?_, ?_⟩
    · exact pyStrip_goodField_ne (hge.2.1 hAT.1)
    · exact pyStrip_goodField_ne (hge.2.2.1 hAT.2)
    · show ("https://").toList ++ e.linkTail ≠ []
      simp

/-- Witness for C4: a malformed middle entry (missing its link) between two
complete ones. -/
theorem c4_theorem_witness :
    extract_tweets centerName (buildResponse wfSummary (some wfPdL) (some c4Pd)
        (some wfPdR)) =
        (([wfEntry] : List Entry).filter isComplete).map citOf ++
          (([wfEntry] : List Entry).filter isComplete).map citOf ∧
      ∀ cit ∈ extract_tweets centerName
          (buildResponse wfSummary (some wfPdL) (some c4Pd) (some wfPdR)),
        (∃ e ∈ c4Pd.entries, isComplete e = true ∧ cit = citOf e) ∧
          cit.account ≠ [] ∧ cit.text ≠ [] ∧ cit.url ≠ [] :=
  c4_per_entry_independence (goodBody_of_b (by decide)) (goodOpt_of_b (by decide))
    (goodOpt_of_b (by decide)) (goodOpt_of_b (by decide)) rfl (by decide)
